import Mathlib

/-!
# Cache-hotness benchmark (`01-cache-hotness/code/main.c`)

A shallow embedding of the dual-process benchmark harness and the properties
of its workload, barrier, placement, duration arithmetic, cache probe and option
parsing.

Conventions of the embedding:

* `size_t` and `ssize_t`/`long`/`int` values are `Nat`/`Int`; arithmetic that
  can leave the machine range is reduced explicitly (`wrap_size`, `wrap_long`,
  `wrap_int`), signed arithmetic as the two's-complement target computes it.
* Division by zero and an indexed access outside its object have no defined
  result: the embedding returns `none` there.
* Values supplied by the operating system (clock readings, bytes read from a
  pipe or a sysfs file, resource counters) are inputs of the definitions.
-/

namespace CacheHotness

/-! ## Machine integers -/

/-- Number of values of a 64-bit `size_t`. -/
def SIZE_RANGE : Nat := 2 ^ 64

/-- Reduction of a natural number to `size_t`. -/
def wrap_size (n : Nat) : Nat := n % SIZE_RANGE

/-- Two's-complement reduction of an integer to the 64-bit `long` (also `ssize_t`, `time_t`). -/
def wrap_long (x : Int) : Int := (x + 2 ^ 63) % 2 ^ 64 - 2 ^ 63

/-- Two's-complement reduction of an integer to the 32-bit `int`. -/
def wrap_int (x : Int) : Int := (x + 2 ^ 31) % 2 ^ 32 - 2 ^ 31

/-- Size of `size_t` in bytes. -/
def SIZEOF_SIZE_T : Nat := 8

/-! ## Data model -/

/-- The `struct settings` of the harness. `concurrent_run` is an `int` that only
ever holds `true` or `false`; `outfile` is the NUL-terminated path. -/
structure settings where
  cache_line_size : Nat
  memory_total : Nat
  access_per_cache_line : Nat
  yield_count : Nat
  outfile : List Char
  concurrent_run : Bool
  fifo_priority : Int
  cpu : Nat
  cpu_freq : Int
deriving DecidableEq, Repr

/-- Every `size_t` field of the settings holds a `size_t` value. -/
def settings.in_range (s : settings) : Prop :=
  s.cache_line_size < SIZE_RANGE ∧ s.memory_total < SIZE_RANGE ∧
  s.access_per_cache_line < SIZE_RANGE ∧ s.yield_count < SIZE_RANGE ∧ s.cpu < SIZE_RANGE

instance (s : settings) : Decidable s.in_range := by
  unfold settings.in_range; exact inferInstance

/-- The `struct timespec`: both fields are `long`. -/
structure timespec where
  tv_sec : Int
  tv_nsec : Int
deriving DecidableEq, Repr

/-- The `struct results` handed to the report writer. -/
structure results where
  time : timespec
  time_parent : timespec
  time_child : timespec
  time_middle_parent : timespec
  time_middle_child : timespec
  vcsw_parent : Nat
  ivcsw_parent : Nat
  vcsw_child : Nat
  ivcsw_child : Nat
deriving DecidableEq, Repr

/-! ## Working set -/

/-- One `malloc`ed block: the number of bytes requested and the whole `size_t`
words that lie inside those bytes. -/
structure Block where
  size : Nat
  words : List Nat
deriving DecidableEq, Repr

/-- A successful `malloc(size)`: `size / 8` whole words with indeterminate content
(`junk k` for word `k`). -/
def malloc (size : Nat) (junk : Nat → Nat) : Block :=
  { size := size, words := (List.range (size / SIZEOF_SIZE_T)).map junk }

/-- The store `block[k] = v`; undefined outside the block. -/
def Block.store (b : Block) (k v : Nat) : Option Block :=
  if k < b.words.length then some { b with words := b.words.set k v } else none

/-- What one execution unit does that the claims observe: the three clock
readings of the timed section, every increment `memory_blocks[j][k]++` and every
`sched_yield()`. -/
inductive Event where
  | time_start
  | time_middle
  | time_finished
  | incr (j k : Nat)
  | sched_yield
deriving DecidableEq, Repr

/-- State of one execution unit: its private `memory_blocks` and the events it
has performed so far, oldest first. -/
structure Proc where
  memory_blocks : List Block
  trace : List Event
deriving DecidableEq, Repr

/-- Append an event to the unit's history. -/
def Proc.record (p : Proc) (e : Event) : Proc :=
  { p with trace := p.trace ++ [e] }

/-- The value of `memory_blocks[j][k]`, when that word exists. -/
def Proc.word (p : Proc) (j k : Nat) : Option Nat :=
  match p.memory_blocks[j]? with
  | none => none
  | some b => b.words[k]?

/-- The loop `for (size_t i = 0; i < n; ++i) body(i)` over a state, iterations in
increasing order; it is undefined as soon as one iteration is. -/
def for_loop {σ : Type} (body : Nat → σ → Option σ) : Nat → σ → Option σ
  | 0, st => some st
  | n + 1, st => (for_loop body n st).bind (body n)

/-- The statement `memory_blocks[j][k]++` (a `size_t` increment). -/
def incr (j k : Nat) (p : Proc) : Option Proc :=
  match p.memory_blocks[j]? with
  | none => none
  | some b =>
    match b.words[k]? with
    | none => none
    | some v =>
      some { memory_blocks := p.memory_blocks.set j { b with words := b.words.set k (wrap_size (v + 1)) },
             trace := p.trace ++ [Event.incr j k] }

/-- The quotient `settings.memory_total / settings.cache_line_size` of `main`
(line 723); division by zero is undefined. -/
def cache_line_count (s : settings) : Option Nat :=
  if s.cache_line_size = 0 then none else some (s.memory_total / s.cache_line_size)

/-- Body of the allocation loop of `main` (lines 727-734): block `i` is
`malloc(cache_line_size)` and its first `access_per_cache_line` words are set to 0. -/
def allocate_block (s : settings) (junk : Nat → Nat → Nat) (i : Nat) (mem : List Block) :
    Option (List Block) :=
  (for_loop (fun k b => Block.store b k 0) s.access_per_cache_line
      (malloc s.cache_line_size (junk i))).map (fun b => mem ++ [b])

/-- The allocation loop of `main` (lines 724-735). Every `malloc` is taken to
succeed, so the pointer array has `cache_line_count` slots; slot `i` is filled
by iteration `i`. `junk i k` is the indeterminate initial content of word `k` of
block `i`. -/
def allocate (s : settings) (clc : Nat) (junk : Nat → Nat → Nat) : Option (List Block) :=
  for_loop (allocate_block s junk) clc []

/-- One touch pass (lines 757-763 and 785-791): the `j` loop over the blocks around
the `k` loop over the first `access_per_cache_line` words. -/
def touch_pass (s : settings) (clc : Nat) : Proc → Option Proc :=
  for_loop (fun j => for_loop (fun k => incr j k) s.access_per_cache_line) clc

/-- The first timed loop of `main` (lines 749-766). -/
def first_half (s : settings) (is_child : Bool) (clc : Nat) : Proc → Option Proc :=
  for_loop (fun _ p =>
    if is_child && !s.concurrent_run then
      some (p.record Event.sched_yield)
    else
      (touch_pass s clc p).map (fun q => q.record Event.sched_yield)) s.yield_count

/-- The second timed loop of `main` (lines 781-793). -/
def second_half (s : settings) (is_child : Bool) (clc : Nat) (p : Proc) : Option Proc :=
  if is_child && !s.concurrent_run then
    for_loop (fun _ => touch_pass s clc) s.yield_count p
  else
    some p

/-- The timed section of `main` (lines 742-800): `time_start`, first loop,
`time_middle`, second loop, `time_finished`. `clock_gettime(CLOCK_MONOTONIC, _)`
is taken to succeed. -/
def timed_section (s : settings) (is_child : Bool) (clc : Nat) (p : Proc) : Option Proc :=
  (first_half s is_child clc (p.record Event.time_start)).bind fun p1 =>
  (second_half s is_child clc (p1.record Event.time_middle)).bind fun p2 =>
  some (p2.record Event.time_finished)

/-- Lines 723-800 of `main` for one unit whose barrier call returned 0: compute
the block count, build the working set, run the timed section. -/
def workload (s : settings) (is_child : Bool) (junk : Nat → Nat → Nat) : Option Proc :=
  (cache_line_count s).bind fun clc =>
  (allocate s clc junk).bind fun mem =>
  timed_section s is_child clc { memory_blocks := mem, trace := [] }

/-- The increments of one touch pass, in program order. -/
def pass_events (clc apc : Nat) : List Event :=
  (List.range clc).flatMap fun j => (List.range apc).map fun k => Event.incr j k

/-- The `size_t` successor computed by `++`. -/
def succ_size (v : Nat) : Nat := wrap_size (v + 1)

/-- Relation between the states before and after a piece of the timed section
that appends the events `evs` and applies `f` to each of the first `apc` words of
each of the first `clc` blocks, leaving every other word alone. -/
def Effect (clc apc : Nat) (evs : List Event) (f : Nat → Nat) (p0 p : Proc) : Prop :=
  p.trace = p0.trace ++ evs ∧
  ∀ j k, p.word j k = if j < clc ∧ k < apc then (p0.word j k).map f else p0.word j k

/-- The first `apc` words of each of the first `clc` blocks exist. -/
def Ready (clc apc : Nat) (p : Proc) : Prop :=
  ∀ j k, j < clc → k < apc → (p.word j k).isSome = true

/-- Events of the timed section of a unit that works in the first loop: the parent
in both modes and the child in concurrent mode. -/
def working_trace (clc apc yc : Nat) : List Event :=
  [Event.time_start] ++
    (List.replicate yc (pass_events clc apc ++ [Event.sched_yield])).flatten ++
    [Event.time_middle] ++ [Event.time_finished]

/-- Events of the timed section of the child in sequential mode. -/
def deferred_trace (clc apc yc : Nat) : List Event :=
  [Event.time_start] ++ (List.replicate yc [Event.sched_yield]).flatten ++
    [Event.time_middle] ++ (List.replicate yc (pass_events clc apc)).flatten ++
    [Event.time_finished]

/-! ## Durations -/

/-- The constant `1000 * 1000 * 1000` (an `int` expression). -/
def NSEC_PER_SEC : Int := 1000 * 1000 * 1000

/-- The nanosecond difference of `main` (lines 774-775 and 808-809):
`t1.tv_nsec - t0.tv_nsec + (t1.tv_sec - t0.tv_sec) * 1000 * 1000 * 1000` in `long`. -/
def time_diff_ns (t1 t0 : timespec) : Int :=
  wrap_long (wrap_long (t1.tv_nsec - t0.tv_nsec) +
    wrap_long (wrap_long (wrap_long (wrap_long (t1.tv_sec - t0.tv_sec) * 1000) * 1000) * 1000))

/-- The initialiser `{ .tv_sec = ns / (1000 * 1000 * 1000), .tv_nsec = ns % (1000 * 1000 * 1000) }`
(lines 776-779, 810-813, 850-853); C division truncates toward zero. -/
def split_ns (ns : Int) : timespec :=
  { tv_sec := ns.tdiv NSEC_PER_SEC, tv_nsec := ns.tmod NSEC_PER_SEC }

/-- The duration `time_diff_middle` (with `t1 = time_middle`) or `time_diff`
(with `t1 = time_finished`) of `main`, from `t0 = time_start`. -/
def time_diff (t1 t0 : timespec) : timespec :=
  split_ns (time_diff_ns t1 t0)

/-- The value `time_diff_average_ns` of `main` (lines 848-849):
`((a.tv_sec + b.tv_sec) * 1000 * 1000 * 1000 + a.tv_nsec + b.tv_nsec) / 2` in `long`. -/
def time_diff_average_ns (a b : timespec) : Int :=
  (wrap_long (wrap_long (wrap_long (wrap_long (wrap_long (wrap_long (a.tv_sec + b.tv_sec)
    * 1000) * 1000) * 1000) + a.tv_nsec) + b.tv_nsec)).tdiv 2

/-- The duration `time_diff_average` of `main` (lines 848-853), with
`a = time_diff` and `b = time_diff_child`. -/
def time_diff_average (a b : timespec) : timespec :=
  split_ns (time_diff_average_ns a b)

/-- Nanosecond total of a duration. -/
def timespec.total_ns (t : timespec) : Int := t.tv_sec * 1000000000 + t.tv_nsec

/-- A duration as the harness reports it: whole seconds and a nanosecond part
below one second, both non-negative. -/
def timespec.normalised (t : timespec) : Prop :=
  0 ≤ t.tv_sec ∧ 0 ≤ t.tv_nsec ∧ t.tv_nsec < 1000000000

instance (t : timespec) : Decidable t.normalised := by
  unfold timespec.normalised; exact inferInstance

/-- Largest value of the 64-bit `long`. -/
def LONG_MAX : Int := 2 ^ 63 - 1

/-! ## Concrete configurations -/

/-- The end-to-end scenario of the specification: footprint 1 MiB, line size 64 B,
one access per line, eight passes, concurrent, CPU 0. -/
def scenario : settings :=
  { cache_line_size := 64, memory_total := 1048576, access_per_cache_line := 1,
    yield_count := 8, outfile := [], concurrent_run := true, fifo_priority := 1,
    cpu := 0, cpu_freq := 2400000 }

/-- A configuration asking for 16 accesses per 64-byte line: the option
`--access_per_cache_line 16` on a machine with 64-byte cache lines. -/
def overlong : settings :=
  { cache_line_size := 64, memory_total := 128, access_per_cache_line := 16,
    yield_count := 1, outfile := [], concurrent_run := true, fifo_priority := 1,
    cpu := 0, cpu_freq := 2400000 }

/-- A configuration on a machine whose sysfs reports a coherency line size of 0. -/
def lineless : settings :=
  { cache_line_size := 0, memory_total := 1048576, access_per_cache_line := 0,
    yield_count := 8, outfile := [], concurrent_run := true, fifo_priority := 1,
    cpu := 0, cpu_freq := 2400000 }

/-- Initial block content used in the concrete runs. -/
def junk0 : Nat → Nat → Nat := fun i k => i + k

/-! ## Barrier -/

/-- The bytes in flight in the two pipes: `parent_pipefds` carries what the parent
wrote and the child has not read yet, `child_pipefds` the converse. -/
structure Pipes where
  parent_pipe : List Nat
  child_pipe : List Nat
deriving DecidableEq, Repr

/-- First half of `synchronize` (lines 555-562): the `write` of the one byte `phase`
to the caller's own pipe; the write succeeds. -/
def synchronize_write (is_child : Bool) (phase : Nat) (pipes : Pipes) : Pipes :=
  if is_child then { pipes with child_pipe := pipes.child_pipe ++ [phase] }
  else { pipes with parent_pipe := pipes.parent_pipe ++ [phase] }

/-- Second half of `synchronize` (lines 564-577): the `read` of one byte from the
other unit's pipe and the comparison with `phase`. `none` while the pipe is empty
(the read blocks); otherwise the return value and the pipes after the read. -/
def synchronize_read (is_child : Bool) (phase : Nat) (pipes : Pipes) : Option (Int × Pipes) :=
  match (if is_child then pipes.parent_pipe else pipes.child_pipe) with
  | [] => none
  | buf :: rest =>
    some (if buf ≠ phase then -1 else 0,
      if is_child then { pipes with parent_pipe := rest } else { pipes with child_pipe := rest })

/-- Where a unit stands in its call of `synchronize`. -/
inductive SyncPc where
  | start
  | written
  | returned (r : Int)
deriving DecidableEq, Repr

/-- The two units at the barrier and the pipes between them. -/
structure Barrier where
  pipes : Pipes
  parent : SyncPc
  child : SyncPc
deriving DecidableEq, Repr

/-- Both units about to call `synchronize`, both pipes empty. -/
def Barrier.init : Barrier :=
  { pipes := { parent_pipe := [], child_pipe := [] }, parent := SyncPc.start,
    child := SyncPc.start }

/-- One scheduling step: the unit `who` (`true` for the child) performs its next
system call inside `synchronize`; the parent calls with tag `p`, the child with
tag `c`. A unit blocked in `read` or already returned does not move. -/
def Barrier.step (p c : Nat) (b : Barrier) (who : Bool) : Barrier :=
  if who then
    match b.child with
    | SyncPc.start => { b with pipes := synchronize_write true c b.pipes, child := SyncPc.written }
    | SyncPc.written =>
      match synchronize_read true c b.pipes with
      | none => b
      | some (r, pipes) => { b with pipes := pipes, child := SyncPc.returned r }
    | SyncPc.returned _ => b
  else
    match b.parent with
    | SyncPc.start => { b with pipes := synchronize_write false p b.pipes, parent := SyncPc.written }
    | SyncPc.written =>
      match synchronize_read false p b.pipes with
      | none => b
      | some (r, pipes) => { b with pipes := pipes, parent := SyncPc.returned r }
    | SyncPc.returned _ => b

/-- The barrier after the scheduler has run the units in the order `sched`. -/
def Barrier.run (p c : Nat) (sched : List Bool) : Barrier :=
  sched.foldl (Barrier.step p c) Barrier.init

/-- How `main` leaves lines 723-800 for one unit. -/
inductive Outcome where
  | undefined
  | exit_failure (trace : List Event)
  | finished (p : Proc)
deriving DecidableEq, Repr

/-- Lines 723-800 of `main` for one unit whose call `synchronize(is_child, 49, ...)`
(the tag is the character 1) returned `sync_ret`: the working set is built, a
non-zero `sync_ret` ends the process with `EXIT_FAILURE`, otherwise the timed
section runs. -/
def main_unit (s : settings) (is_child : Bool) (junk : Nat → Nat → Nat) (sync_ret : Int) :
    Outcome :=
  match cache_line_count s with
  | none => Outcome.undefined
  | some clc =>
    match allocate s clc junk with
    | none => Outcome.undefined
    | some mem =>
      if sync_ret ≠ 0 then Outcome.exit_failure []
      else
        match timed_section s is_child clc { memory_blocks := mem, trace := [] } with
        | none => Outcome.undefined
        | some p => Outcome.finished p

/-- The states the barrier can be in. -/
def Barrier.Reachable (p c : Nat) (b : Barrier) : Prop :=
  b = ⟨⟨[], []⟩, SyncPc.start, SyncPc.start⟩ ∨
  b = ⟨⟨[p], []⟩, SyncPc.written, SyncPc.start⟩ ∨
  b = ⟨⟨[], [c]⟩, SyncPc.start, SyncPc.written⟩ ∨
  b = ⟨⟨[p], [c]⟩, SyncPc.written, SyncPc.written⟩ ∨
  b = ⟨⟨[p], []⟩, SyncPc.returned (if c ≠ p then -1 else 0), SyncPc.written⟩ ∨
  b = ⟨⟨[], [c]⟩, SyncPc.written, SyncPc.returned (if p ≠ c then -1 else 0)⟩ ∨
  b = ⟨⟨[], []⟩, SyncPc.returned (if c ≠ p then -1 else 0),
        SyncPc.returned (if p ≠ c then -1 else 0)⟩

/-! ## Placement -/

/-- Number of CPUs a `cpu_set_t` can hold (`CPU_SETSIZE` of `<sched.h>`). -/
def CPU_SETSIZE : Int := 1024

/-- The library macro `CPU_ZERO`: the empty CPU set. -/
def CPU_ZERO : Finset Nat := ∅

/-- The library macro `CPU_SET(cpu, &set)` of `<sched.h>`: it adds `cpu` to the set
when `0 ≤ cpu < CPU_SETSIZE` and leaves the set alone otherwise (the macro
compares `(size_t) cpu / 8` with the size of the set). -/
def CPU_SET (cpu : Int) (set : Finset Nat) : Finset Nat :=
  if 0 ≤ cpu ∧ cpu < CPU_SETSIZE then insert cpu.toNat set else set

/-- The CPU set that `set_affinity(cpu)` passes to `sched_setaffinity` (lines
504-510): `cpu_dest = cpu - 1` is the one CPU added to an empty set. -/
def set_affinity_mask (cpu : Int) : Finset Nat :=
  let cpu_dest := wrap_int (cpu - 1)
  CPU_SET cpu_dest CPU_ZERO

/-- The CPU set requested by `configure` (line 601): `set_affinity(settings->cpu)`,
the `size_t` index converted to the `int` parameter. -/
def configure_affinity_mask (s : settings) : Finset Nat :=
  set_affinity_mask (wrap_int s.cpu)

/-- The CPU whose frequency `get_cpu_freq_cpuinfo` reads (line 314) and whose cache
directory `get_cache_sizes` lists (line 410): the `%zu` in the sysfs path. -/
def probed_cpu (s : settings) : Nat := s.cpu

/-! ## Result collection -/

/-- The `printf` conversion `%ld`. -/
def fmt_ld (x : Int) : String := toString x

/-- The `printf` conversion `%03ld`: at least three characters, padded with zeros
after the sign. -/
def fmt_03ld (x : Int) : String :=
  let sign := if x < 0 then "-" else ""
  let digits := toString x.natAbs
  sign ++ String.mk (List.replicate (3 - sign.length - digits.length) '0') ++ digits

/-- The function `cpu_freq_to_str` (lines 337-343) on the caller's 128-byte buffer:
the return value and the text left in the buffer. `snprintf` returns the length of
the formatted text and stores at most `buf_size - 2` characters of it. -/
def cpu_freq_to_str (cpu_freq : Int) : Int × String :=
  let gigahz := cpu_freq.tdiv (1000 * 1000)
  let megahz := cpu_freq.tdiv 1000
  let text := fmt_ld gigahz ++ "." ++ fmt_03ld megahz ++ " GHz"
  let result : Int := text.length
  (if result < 0 then -1 else 0, String.mk (text.toList.take 126))

/-- The two counters of `struct rusage` that `main` reads (both `long`). -/
structure rusage where
  ru_nvcsw : Int
  ru_nivcsw : Int
deriving DecidableEq, Repr

/-- Conversion of a `long` to `size_t`. -/
def size_of_long (x : Int) : Nat := (x % 2 ^ 64).toNat

/-- How the parent leaves lines 848-907 of `main`: by `exit(EXIT_FAILURE)`, or with
the `struct results` initialised. `out` lists the lines written by the
unconditional `printf` calls (the verbosity-gated messages are left out). -/
inductive Report where
  | exit_failure (out : List String)
  | built (out : List String) (r : results)
deriving DecidableEq, Repr

/-- The lines printed so far. -/
def Report.out : Report → List String
  | Report.exit_failure out => out
  | Report.built out _ => out

/-- The results record, when the run got to build it. -/
def Report.results : Report → Option results
  | Report.exit_failure _ => none
  | Report.built _ r => some r

/-- The role label of the drift messages: `is_child ? "CHILD" : "PARENT"`. -/
def role_label (is_child : Bool) : String := if is_child then "CHILD" else "PARENT"

/-- First line of the frequency-drift warning (line 860). -/
def drift_warning (is_child : Bool) : String :=
  "[" ++ role_label is_child ++ "] CPU freq at start is different than at finish!"

/-- Lines 874-907 of `main`: the two `getrusage` calls (`none` when a call fails,
which ends the process) and the `struct results` initialiser. `out` is what has
been printed before. -/
def collect_results (out : List String)
    (time_diff_average time_diff_middle time_diff time_diff_middle_child time_diff_child : timespec)
    (rusage_parent rusage_child : Option rusage) : Report :=
  match rusage_parent with
  | none => Report.exit_failure out
  | some rp =>
    match rusage_child with
    | none => Report.exit_failure out
    | some rc =>
      Report.built out
        { time := time_diff_average,
          time_parent := time_diff,
          time_child := time_diff_child,
          time_middle_parent := time_diff_middle,
          time_middle_child := time_diff_middle_child,
          vcsw_parent := size_of_long rp.ru_nvcsw,
          ivcsw_parent := size_of_long rp.ru_nivcsw,
          vcsw_child := size_of_long rc.ru_nvcsw,
          ivcsw_child := size_of_long rc.ru_nivcsw }

/-- Lines 848-907 of `main`, which only the parent reaches (`is_child` is false
there): the average, the frequency re-probe `cpu_freq_finish` compared with
`settings.cpu_freq`, then `collect_results`. The arguments are the parent's two
durations and the two durations read from the child's pipe. -/
def main_report (s : settings) (is_child : Bool)
    (time_diff_middle time_diff time_diff_middle_child time_diff_child : timespec)
    (cpu_freq_finish : Int) (rusage_parent rusage_child : Option rusage) : Report :=
  let average := time_diff_average time_diff time_diff_child
  let label := "[" ++ role_label is_child ++ "] "
  if s.cpu_freq ≠ cpu_freq_finish then
    let out := [drift_warning is_child,
      label ++ "Turn off freq scaling for more reliable results"]
    if (cpu_freq_to_str s.cpu_freq).1 ≠ 0 then Report.exit_failure out
    else
      let out := out ++ [label ++ "CPU freq at start: " ++ (cpu_freq_to_str s.cpu_freq).2]
      if (cpu_freq_to_str cpu_freq_finish).1 ≠ 0 then Report.exit_failure out
      else
        collect_results
          (out ++ [label ++ "CPU freq at finish: " ++ (cpu_freq_to_str cpu_freq_finish).2])
          average time_diff_middle time_diff time_diff_middle_child time_diff_child
          rusage_parent rusage_child
  else
    collect_results [] average time_diff_middle time_diff time_diff_middle_child
      time_diff_child rusage_parent rusage_child

/-! ## Cache probe -/

/-- The NUL byte. -/
def NUL : Char := Char.ofNat 0

/-- The newline byte. -/
def NEWLINE : Char := Char.ofNat 10

/-- The C string held in a byte buffer: the bytes before the first NUL. -/
def c_string (buf : List Char) : List Char := buf.takeWhile (fun c => c ≠ NUL)

/-- The library predicate `isspace` in the C locale. -/
def isspace (c : Char) : Bool := c.toNat = 32 || (9 ≤ c.toNat && c.toNat ≤ 13)

/-- Skip the leading white space of a string, as `atoi` does. -/
def skip_space : List Char → List Char
  | [] => []
  | c :: cs => if isspace c then skip_space cs else c :: cs

/-- Value of the leading decimal digits of a string, continuing from `acc`. -/
def digits_value (acc : Nat) : List Char → Nat
  | [] => acc
  | c :: cs => if c.isDigit then digits_value (acc * 10 + (c.toNat - 48)) cs else acc

/-- The library function `atoi`: optional white space, optional sign, decimal
digits. The result is not defined when the value does not fit `int`. -/
def atoi (str : List Char) : Option Int :=
  let body := skip_space str
  let v : Int :=
    match body with
    | [] => 0
    | c :: cs =>
      if c = '-' then -(digits_value 0 cs : Int)
      else if c = '+' then (digits_value 0 cs : Int)
      else (digits_value 0 (c :: cs) : Int)
  if -2147483648 ≤ v ∧ v < 2147483648 then some v else none

/-- The function `parse_size` (lines 75-101). The last character selects the
multiplier and is removed; `atoi` of what is left, converted to `size_t`, is
multiplied in `size_t`. On the empty string `str[str_length - 1]` lies outside the
string. -/
def parse_size (str : List Char) : Option Nat :=
  match str.getLast? with
  | none => none
  | some last =>
    let multiplier : Nat :=
      if last = 'k' ∨ last = 'K' then 1024
      else if last = 'm' ∨ last = 'M' then 1024 * 1024
      else if last = 'g' ∨ last = 'G' then 1024 * 1024 * 1024
      else 1
    let new_str := str.take (str.length - 1)
    (atoi new_str).map fun v => wrap_size ((v % 2 ^ 64).toNat * multiplier)

/-- One `readdir` entry of the directory `/sys/devices/system/cpu/cpuN/cache/` as
`get_cache_sizes` meets it: `d_index` is the number scanned by `index%d` (`none`
when the name does not match), `type_file` and `size_file` the bytes of the files
`type` and `size` below it (`none` when `open` or `read` fails). -/
structure cache_dirent where
  d_index : Option Int
  type_file : Option (List Char)
  size_file : Option (List Char)
deriving DecidableEq, Repr

/-- The call `read(fd, buf, sizeof(buf)-1)` on a file with the bytes `content`: the
number of bytes read and the buffer afterwards. -/
def read_file (content buf : List Char) : Nat × List Char :=
  let bytes_read := min (buf.length - 1) content.length
  (bytes_read, content.take bytes_read ++ buf.drop bytes_read)

/-- The statement `if (buf[bytes_read-1] == '\n') buf[bytes_read-1] = 0;` (lines
364-367 and 395-398); with nothing read the index is outside the buffer. -/
def strip_newline (bytes_read : Nat) (buf : List Char) : Option (List Char) :=
  if bytes_read = 0 then none
  else if buf[bytes_read - 1]? = some NEWLINE then some (buf.set (bytes_read - 1) NUL)
  else some buf

/-- The cache type as `get_cache_size` compares it (lines 355-368): the C string
in the zeroed 32-byte buffer after the `type` file was read and its newline cut. -/
def type_buffer (t : List Char) : Option (List Char) :=
  strip_newline (read_file t (List.replicate 32 NUL)).1 (read_file t (List.replicate 32 NUL)).2

/-- The buffer after the `size` file was read over the type text and its newline
cut (lines 388-398). -/
def size_buffer (z buf : List Char) : Option (List Char) :=
  strip_newline (read_file z buf).1 (read_file z buf).2

/-- The function `get_cache_size` (lines 345-405): the value returned and whether a
failing `open` or `read` has set `errno`. -/
def get_cache_size (e : cache_dirent) : Option (Int × Bool) :=
  match e.type_file with
  | none => some (-1, true)
  | some t =>
    match type_buffer t with
    | none => none
    | some buf =>
      if c_string buf = "Instruction".toList then some (0, false)
      else if c_string buf ≠ "Data".toList ∧ c_string buf ≠ "Unified".toList then some (-1, false)
      else
        match e.size_file with
        | none => some (-1, true)
        | some z =>
          match size_buffer z buf with
          | none => none
          | some buf2 =>
            match parse_size (c_string buf2) with
            | none => none
            | some cache_size => some (wrap_long cache_size, false)

/-- The variables of the loop of `get_cache_sizes`. -/
structure probe_state where
  cache_sizes : List Nat
  highest_index : Int
  errno : Bool
deriving DecidableEq, Repr

/-- Body of the `readdir` loop of `get_cache_sizes` (lines 424-445). The path built
by `snprintf` cannot exceed `PATH_MAX`, since a directory entry name has at most
255 bytes. A store outside the caller's array is not defined. -/
def get_cache_sizes_step (st : probe_state) (e : cache_dirent) : Option probe_state :=
  match e.d_index with
  | none => some st
  | some index =>
    match get_cache_size e with
    | none => none
    | some (cache_size, err) =>
      if 0 < cache_size then
        if 0 ≤ index ∧ index.toNat < st.cache_sizes.length then
          some { cache_sizes := st.cache_sizes.set index.toNat cache_size.toNat,
                 highest_index := if index > st.highest_index then index else st.highest_index,
                 errno := st.errno || err }
        else none
      else some { st with errno := st.errno || err }

/-- The `readdir` loop of `get_cache_sizes` over the entries in directory order. -/
def get_cache_sizes_loop : List cache_dirent → probe_state → Option probe_state
  | [], st => some st
  | e :: es, st => (get_cache_sizes_step st e).bind (get_cache_sizes_loop es)

/-- The function `get_cache_sizes` (lines 407-455): the return value and the
caller's array afterwards. `dir` is `none` when `opendir` fails. -/
def get_cache_sizes (dir : Option (List cache_dirent)) (cache_sizes : List Nat) :
    Option (Int × List Nat) :=
  match dir with
  | none => some (-1, cache_sizes)
  | some es =>
    (get_cache_sizes_loop es { cache_sizes := cache_sizes, highest_index := -1, errno := false }).map
      fun st => if st.errno then (-1, st.cache_sizes)
                else (wrap_int (st.highest_index + 1), st.cache_sizes)

/-- The text of a sysfs attribute file: the value followed by a newline. -/
def sysfs_text (value : String) : Option (List Char) := some (value.toList ++ [NEWLINE])

/-- A cache directory as a four-level machine shows it: L1 data, L1 instruction,
L2, L3, after the entries `.` and `..`. -/
def cache_dir : List cache_dirent :=
  [ { d_index := none, type_file := none, size_file := none },
    { d_index := none, type_file := none, size_file := none },
    { d_index := some 0, type_file := sysfs_text "Data", size_file := sysfs_text "32K" },
    { d_index := some 1, type_file := sysfs_text "Instruction", size_file := sysfs_text "32K" },
    { d_index := some 3, type_file := sysfs_text "Unified", size_file := sysfs_text "8192K" },
    { d_index := some 2, type_file := sysfs_text "Unified", size_file := sysfs_text "256K" } ]

/-- The kind of an entry as `get_cache_size` classifies it: the C string it
compares with `Instruction`, `Data` and `Unified`. -/
def cache_type (e : cache_dirent) : Option (List Char) :=
  (e.type_file.bind type_buffer).map c_string

/-- The entry `e` has index `i` and `get_cache_size` returns the positive size `v`
for it, with no failing `open` or `read`. -/
def recorded (e : cache_dirent) (i v : Int) : Prop :=
  e.d_index = some i ∧ get_cache_size e = some (v, false) ∧ 0 < v

/-- One cache index entry as a listing names it: its index, its kind and its
size text, the latter two being the values of the sysfs attributes `type` and
`size` without their final newline. -/
structure cache_index where
  index : Int
  kind : List Char
  size_text : List Char
deriving DecidableEq, Repr

/-- The directory entry behind one item of a listing. `none` is an entry whose name
is not `index%d` (such as `.` and `..`); `some c` is the directory of the cache
entry `c`, whose files `type` and `size` hold the value followed by a newline. -/
def listing_dirent : Option cache_index → cache_dirent
  | none => { d_index := none, type_file := none, size_file := none }
  | some c =>
    { d_index := some c.index,
      type_file := some (c.kind ++ [NEWLINE]),
      size_file := some (c.size_text ++ [NEWLINE]) }

/-- The entry is of kind `Data` or `Unified`. -/
def cache_index.is_data (c : cache_index) : Prop :=
  c.kind = "Data".toList ∨ c.kind = "Unified".toList

instance (c : cache_index) : Decidable c.is_data := by
  unfold cache_index.is_data; exact inferInstance

/-- The size in bytes that the size text of an entry stands for: `parse_size` of the
text, read as the `ssize_t` that `get_cache_size` returns. -/
def cache_index.size_bytes (c : cache_index) : Int :=
  match parse_size c.size_text with
  | some n => wrap_long n
  | none => 0

/-- The texts of the entry are attribute values that fit the 32-byte buffer of
`get_cache_size` and hold no NUL byte, and the size text of a `Data` or `Unified`
entry is one that `parse_size` converts. -/
def cache_index.well_formed (c : cache_index) : Prop :=
  NUL ∉ c.kind ∧ c.kind.length < 31 ∧
  (c.is_data → NUL ∉ c.size_text ∧ c.size_text.length < 31 ∧
    (parse_size c.size_text).isSome = true)

instance (c : cache_index) : Decidable c.well_formed := by
  unfold cache_index.well_formed; exact inferInstance

/-- A listing as a four-level machine shows it: `.`, `..`, L1 data, L1
instruction, L3 and L2. -/
def cache_listing : List (Option cache_index) :=
  [ none, none,
    some { index := 0, kind := "Data".toList, size_text := "32K".toList },
    some { index := 1, kind := "Instruction".toList, size_text := "32K".toList },
    some { index := 3, kind := "Unified".toList, size_text := "8192K".toList },
    some { index := 2, kind := "Unified".toList, size_text := "256K".toList } ]

/-! ## Size texts -/

/-- Value denoted by a string of decimal digits, most significant digit first. -/
def decimal_value (d : List Char) : Nat :=
  Nat.ofDigits 10 (d.reverse.map fun c => c.toNat - 48)

/-- The unit multiplier that the specification gives for a final character:
1024 for `k`/`K`, 1024 squared for `m`/`M`, 1024 cubed for `g`/`G`, 1 otherwise. -/
def unit_multiplier (u : Char) : Nat :=
  if u = 'k' ∨ u = 'K' then 1024
  else if u = 'm' ∨ u = 'M' then 1024 ^ 2
  else if u = 'g' ∨ u = 'G' then 1024 ^ 3
  else 1

/-! ## Option parsing -/

/-- One result of `getopt_long`: the option character it returns and `optarg`
(`none` for a NULL `optarg`). -/
structure getopt_result where
  c : Char
  optarg : Option (List Char)
deriving DecidableEq, Repr

/-- The constant `PATH_MAX`, the size of `settings.outfile`. -/
def PATH_MAX : Nat := 4096

/-- The function `initialize_settings` (lines 580-595). `line_size` is the `int`
returned by `get_cache_line_size()` and `cpu_count` the one returned by
`get_cpu_count()`; both are converted to `size_t` by the assignment. -/
def initialize_settings (line_size cpu_count : Int) : settings :=
  { cache_line_size := size_of_long line_size,
    memory_total := 4 * 1024 * 1024,
    access_per_cache_line := 1,
    yield_count := 16,
    outfile := [],
    concurrent_run := true,
    fifo_priority := 1,
    cpu := size_of_long (wrap_int (cpu_count - 1)),
    cpu_freq := -1 }

/-- One pass through the `switch` of `parse_options` (lines 171-240) for the option
`o`, from the settings `s` and the global `verbose`. The outer `none` stands for a
library call without defined result (`atoi` out of range, `parse_size` or `atoi` of
a missing argument, a path longer than the `outfile` array); the inner `none` for
`return -1`; otherwise the loop goes on with the new settings and `verbose`. -/
def parse_option (s : settings) (verbose : Int) (o : getopt_result) :
    Option (Option (settings × Int)) :=
  if o.c = 'v' then
    match o.optarg with
    | none => some (some (s, 1))
    | some arg =>
      (atoi arg).map fun new_verbose =>
        if new_verbose > 3 ∨ new_verbose < 0 then none else some (s, new_verbose)
  else if o.c = 'm' then
    (o.optarg.bind parse_size).map fun n => some ({ s with memory_total := n }, verbose)
  else if o.c = 'a' then
    (o.optarg.bind atoi).map fun n =>
      some ({ s with access_per_cache_line := size_of_long n }, verbose)
  else if o.c = 'y' then
    (o.optarg.bind atoi).map fun n => some ({ s with yield_count := size_of_long n }, verbose)
  else if o.c = 'c' then
    match o.optarg with
    | none => some (some ({ s with concurrent_run := true }, verbose))
    | some arg =>
      if arg = "yes".toList then some (some ({ s with concurrent_run := true }, verbose))
      else if arg = "no".toList then some (some ({ s with concurrent_run := false }, verbose))
      else some none
  else if o.c = 'f' then
    (o.optarg.bind atoi).map fun n => some ({ s with fifo_priority := n }, verbose)
  else if o.c = 'p' then
    (o.optarg.bind atoi).map fun n => some ({ s with cpu := size_of_long n }, verbose)
  else if o.c = 'o' then
    match o.optarg with
    | none => none
    | some arg => if arg.length < PATH_MAX then some (some ({ s with outfile := arg }, verbose))
                  else none
  else if o.c = 'h' ∨ o.c = '?' then some none
  else some (some (s, verbose))

/-- The function `parse_options` (lines 152-244) over the options that
`getopt_long` returns one after the other: the return value, the settings and the
global `verbose` when it returns. -/
def parse_options : List getopt_result → settings → Int → Option (Int × settings × Int)
  | [], s, verbose => some (0, s, verbose)
  | o :: os, s, verbose =>
    match parse_option s verbose o with
    | none => none
    | some none => some (-1, s, verbose)
    | some (some (s1, verbose1)) => parse_options os s1 verbose1

/-- The option is one that `parse_options` takes without returning and whose
library calls have a defined result: a `verbose` value from 0 to 3, a memory size
that `parse_size` converts, numbers that `atoi` converts, `yes` or `no` for
`concurrent`, a path that fits `outfile`. No condition relates the memory size to
the cache line size. -/
def option_accepted (o : getopt_result) : Bool :=
  if o.c = 'v' then
    match o.optarg with
    | none => true
    | some arg =>
      match atoi arg with
      | none => false
      | some n => decide (0 ≤ n ∧ n ≤ 3)
  else if o.c = 'm' then (o.optarg.bind parse_size).isSome
  else if o.c = 'a' ∨ o.c = 'y' ∨ o.c = 'f' ∨ o.c = 'p' then (o.optarg.bind atoi).isSome
  else if o.c = 'c' then
    match o.optarg with
    | none => true
    | some arg => decide (arg = "yes".toList ∨ arg = "no".toList)
  else if o.c = 'o' then
    match o.optarg with
    | none => false
    | some arg => decide (arg.length < PATH_MAX)
  else if o.c = 'h' ∨ o.c = '?' then false
  else true

/-- The memory footprint after the options `opts`: the `parse_size` value of the
last `m` option, the footprint `m0` held before when there is none. -/
def footprint (m0 : Nat) (opts : List getopt_result) : Nat :=
  opts.foldl (fun m o => if o.c = 'm' then (o.optarg.bind parse_size).getD m else m) m0

/-! ## Loops -/

theorem for_loop_succ {σ : Type} (body : Nat → σ → Option σ) (n : Nat) (st : σ) :
    for_loop body (n + 1) st = (for_loop body n st).bind (body n) := rfl

/-- Invariant rule for `for_loop`: an invariant that holds initially and is carried
by every iteration holds at the end, and the loop is defined. -/
theorem for_loop_inv {σ : Type} (body : Nat → σ → Option σ) (Inv : Nat → σ → Prop)
    (n : Nat) (st : σ) (h0 : Inv 0 st)
    (hstep : ∀ i t, i < n → Inv i t → ∃ t', body i t = some t' ∧ Inv (i + 1) t') :
    ∃ t, for_loop body n st = some t ∧ Inv n t := by
  induction n with
  | zero => exact ⟨st, rfl, h0⟩
  | succ n ih =>
    obtain ⟨t, ht, hinv⟩ := ih (fun i t hi => hstep i t (Nat.lt_succ_of_lt hi))
    obtain ⟨t', ht', hinv'⟩ := hstep n t (Nat.lt_succ_self n) hinv
    exact ⟨t', by rw [for_loop_succ, ht]; exact ht', hinv'⟩

/-- A loop with no iteration is the identity. -/
theorem for_loop_zero {σ : Type} (body : Nat → σ → Option σ) (st : σ) :
    for_loop body 0 st = some st := rfl

/-! ## Effects of the timed section on the working set -/

theorem Proc.word_record (p : Proc) (e : Event) (j k : Nat) :
    (p.record e).word j k = p.word j k := rfl

theorem Effect.refl (clc apc : Nat) (p : Proc) : Effect clc apc [] id p p := by
  refine ⟨by simp, fun j k => ?_⟩
  split <;> simp

theorem Effect.trans {clc apc : Nat} {e1 e2 : List Event} {f1 f2 : Nat → Nat} {p0 p1 p2 : Proc}
    (h1 : Effect clc apc e1 f1 p0 p1) (h2 : Effect clc apc e2 f2 p1 p2) :
    Effect clc apc (e1 ++ e2) (f2 ∘ f1) p0 p2 := by
  refine ⟨by rw [h2.1, h1.1, List.append_assoc], fun j k => ?_⟩
  rw [h2.2 j k, h1.2 j k]
  split
  · simp [Option.map_map]
  · rfl

theorem Effect.record {clc apc : Nat} {evs : List Event} {f : Nat → Nat} {p0 p : Proc}
    (h : Effect clc apc evs f p0 p) (e : Event) :
    Effect clc apc (evs ++ [e]) f p0 (p.record e) := by
  refine ⟨?_, fun j k => ?_⟩
  · show p.trace ++ [e] = _
    rw [h.1, List.append_assoc]
  · rw [Proc.word_record]; exact h.2 j k

theorem Effect.ready {clc apc : Nat} {evs : List Event} {f : Nat → Nat} {p0 p : Proc}
    (h : Effect clc apc evs f p0 p) (hr : Ready clc apc p0) : Ready clc apc p := by
  intro j k hj hk
  rw [h.2 j k, if_pos ⟨hj, hk⟩]
  have := hr j k hj hk
  cases hw : p0.word j k with
  | none => rw [hw] at this; simp at this
  | some v => simp

/-- The increment of an existing word is defined, changes that word only and
records one event. -/
theorem incr_spec (j k : Nat) (p : Proc) (h : (p.word j k).isSome = true) :
    ∃ p', incr j k p = some p' ∧ p'.trace = p.trace ++ [Event.incr j k] ∧
      ∀ j' k', p'.word j' k' =
        if j' = j ∧ k' = k then (p.word j' k').map succ_size else p.word j' k' := by
  unfold Proc.word at h
  cases hb : p.memory_blocks[j]? with
  | none => rw [hb] at h; simp at h
  | some b =>
    rw [hb] at h
    cases hv : b.words[k]? with
    | none => simp only [hv] at h; simp at h
    | some v =>
      have hjlt : j < p.memory_blocks.length := by
        by_contra hc
        rw [List.getElem?_eq_none (by omega)] at hb
        cases hb
      have hklt : k < b.words.length := by
        by_contra hc
        rw [List.getElem?_eq_none (by omega)] at hv
        cases hv
      refine ⟨{ memory_blocks := p.memory_blocks.set j
                  { b with words := b.words.set k (wrap_size (v + 1)) },
                trace := p.trace ++ [Event.incr j k] }, by simp [incr, hb, hv], rfl,
              fun j' k' => ?_⟩
      unfold Proc.word
      simp only [List.getElem?_set]
      by_cases hj : j = j'
      · subst hj
        simp only [if_pos hjlt, hb, true_and, if_true]
        simp only [List.getElem?_set]
        by_cases hk : k = k'
        · subst hk
          simp [hklt, hv, succ_size]
        · have hk' : ¬ k' = k := fun h => hk h.symm
          simp [hk, hk']
      · have hj' : ¬ j' = j := fun h => hj h.symm
        simp [hj, hj']

theorem pass_events_succ (clc apc : Nat) :
    pass_events (clc + 1) apc =
      pass_events clc apc ++ (List.range apc).map (fun k => Event.incr clc k) := by
  simp [pass_events, List.range_succ, List.flatMap_append]

/-- The `k` loop on block `j` increments its first `apc` words. -/
theorem inner_loop_spec (j apc : Nat) (p : Proc)
    (h : ∀ k, k < apc → (p.word j k).isSome = true) :
    ∃ p', for_loop (fun k => incr j k) apc p = some p' ∧
      p'.trace = p.trace ++ (List.range apc).map (fun k => Event.incr j k) ∧
      ∀ j' k', p'.word j' k' =
        if j' = j ∧ k' < apc then (p.word j' k').map succ_size else p.word j' k' := by
  have key := for_loop_inv (fun k => incr j k)
    (fun K t => t.trace = p.trace ++ (List.range K).map (fun k => Event.incr j k) ∧
      ∀ j' k', t.word j' k' =
        if j' = j ∧ k' < K then (p.word j' k').map succ_size else p.word j' k')
    apc p ⟨by simp, fun j' k' => by simp⟩
    (by
      intro K t hK ⟨htr, hw⟩
      have hsome : (t.word j K).isSome = true := by
        rw [hw j K]; simpa using h K hK
      obtain ⟨t', ht', htr', hw'⟩ := incr_spec j K t hsome
      refine ⟨t', ht', ?_, fun j' k' => ?_⟩
      · rw [htr', htr, List.range_succ]; simp
      · rw [hw' j' k', hw j' k']
        by_cases hj : j' = j
        · by_cases hk : k' = K
          · subst hk; simp [hj]
          · by_cases hk2 : k' < K
            · have : k' < K + 1 := by omega
              simp [hj, hk, hk2, this]
            · have : ¬ k' < K + 1 := by omega
              simp [hj, hk, hk2, this]
        · simp [hj])
  exact key

/-- One touch pass over a ready working set is defined, applies the `size_t`
successor to each of the first `apc` words of each block and records `pass_events`. -/
theorem touch_pass_spec (s : settings) (clc : Nat) (p : Proc)
    (h : Ready clc s.access_per_cache_line p) :
    ∃ p', touch_pass s clc p = some p' ∧
      Effect clc s.access_per_cache_line (pass_events clc s.access_per_cache_line) succ_size p p' := by
  have key := for_loop_inv
    (fun j => for_loop (fun k => incr j k) s.access_per_cache_line)
    (fun J t => J ≤ clc ∧
      Effect J s.access_per_cache_line (pass_events J s.access_per_cache_line) succ_size p t)
    clc p ⟨Nat.zero_le _, by simp [pass_events], fun j k => by simp⟩
    (by
      intro J t hJ ⟨_, htr, hw⟩
      have hsome : ∀ k, k < s.access_per_cache_line → (t.word J k).isSome = true := by
        intro k hk
        rw [hw J k]; simpa using h J k hJ hk
      obtain ⟨t', ht', htr', hw'⟩ := inner_loop_spec J s.access_per_cache_line t hsome
      refine ⟨t', ht', hJ, ?_, fun j' k' => ?_⟩
      · rw [htr', htr, pass_events_succ, List.append_assoc]
      · rw [hw' j' k', hw j' k']
        by_cases hk : k' < s.access_per_cache_line
        · by_cases hj : j' = J
          · subst hj; simp [hk]
          · by_cases hj2 : j' < J
            · have : j' < J + 1 := by omega
              simp [hj, hk, hj2, this]
            · have : ¬ j' < J + 1 := by omega
              simp [hj, hk, hj2, this]
        · simp [hk])
  obtain ⟨t, ht, _, he⟩ := key
  exact ⟨t, ht, he⟩

/-- Running a body with a fixed effect `n` times has the `n`-fold effect. -/
theorem repeat_effect (clc apc : Nat) (body : Proc → Option Proc) (evs : List Event)
    (f : Nat → Nat)
    (hbody : ∀ q, Ready clc apc q → ∃ q', body q = some q' ∧ Effect clc apc evs f q q')
    (n : Nat) (p : Proc) (h : Ready clc apc p) :
    ∃ p', for_loop (fun _ => body) n p = some p' ∧
      Effect clc apc (List.replicate n evs).flatten (f^[n]) p p' := by
  have key := for_loop_inv (fun _ => body)
    (fun i t => Effect clc apc (List.replicate i evs).flatten (f^[i]) p t)
    n p (by simpa using Effect.refl clc apc p)
    (by
      intro i t _ he
      obtain ⟨t', ht', he'⟩ := hbody t (he.ready h)
      refine ⟨t', ht', ?_⟩
      have := he.trans he'
      show Effect clc apc (List.replicate (i + 1) evs).flatten (f^[i + 1]) p t'
      rw [Function.iterate_succ', List.replicate_succ', List.flatten_append]
      simpa using this)
  exact key

theorem succ_size_iterate (n : Nat) (h : n < SIZE_RANGE) : succ_size^[n] 0 = n := by
  induction n with
  | zero => rfl
  | succ n ih =>
    rw [Function.iterate_succ_apply', ih (by omega)]
    exact Nat.mod_eq_of_lt h

/-! ## The events of one pass -/

theorem mem_pass_events (clc apc : Nat) (e : Event) :
    e ∈ pass_events clc apc ↔ ∃ j k, j < clc ∧ k < apc ∧ e = Event.incr j k := by
  simp only [pass_events, List.mem_flatMap, List.mem_map, List.mem_range]
  constructor
  · rintro ⟨j, hj, k, hk, rfl⟩
    exact ⟨j, k, hj, hk, rfl⟩
  · rintro ⟨j, k, hj, hk, rfl⟩
    exact ⟨j, hj, k, hk, rfl⟩

theorem length_pass_events (clc apc : Nat) : (pass_events clc apc).length = clc * apc := by
  induction clc with
  | zero => simp [pass_events]
  | succ n ih => rw [pass_events_succ, List.length_append, ih]; simp [Nat.succ_mul]

theorem count_single (J n j k : Nat) :
    List.count (Event.incr j k) [Event.incr J n] = if j = J ∧ k = n then 1 else 0 := by
  rw [List.count_singleton]
  by_cases h : j = J ∧ k = n
  · obtain ⟨rfl, rfl⟩ := h; simp
  · rw [if_neg h, if_neg]
    intro hc
    have := of_decide_eq_true hc
    injection this with h1 h2
    exact h ⟨h1.symm, h2.symm⟩

theorem count_row (J apc j k : Nat) :
    List.count (Event.incr j k) ((List.range apc).map (fun k => Event.incr J k)) =
      if j = J ∧ k < apc then 1 else 0 := by
  induction apc with
  | zero => simp
  | succ n ih =>
    rw [List.range_succ, List.map_append, List.count_append, ih, List.map_singleton,
      count_single]
    by_cases hj : j = J
    · by_cases hk : k = n
      · subst hk; simp [hj]
      · by_cases hk2 : k < n
        · have h3 : k < n + 1 := by omega
          simp [hj, hk, hk2, h3]
        · have h3 : ¬ k < n + 1 := by omega
          simp [hj, hk, hk2, h3]
    · simp [hj]

/-- Every word of the touched region is incremented exactly once by a pass. -/
theorem count_pass_events (clc apc j k : Nat) :
    List.count (Event.incr j k) (pass_events clc apc) = if j < clc ∧ k < apc then 1 else 0 := by
  induction clc with
  | zero => simp [pass_events]
  | succ n ih =>
    rw [pass_events_succ, List.count_append, ih, count_row]
    by_cases hk : k < apc
    · by_cases hj : j = n
      · subst hj; simp [hk]
      · by_cases hj2 : j < n
        · have : j < n + 1 := by omega
          simp [hj, hk, hj2, this]
        · have : ¬ j < n + 1 := by omega
          simp [hj, hk, hj2, this]
    · simp [hk]

/-! ## Allocation -/

theorem malloc_size (size : Nat) (junk : Nat → Nat) : (malloc size junk).size = size := rfl

theorem malloc_words_length (size : Nat) (junk : Nat → Nat) :
    (malloc size junk).words.length = size / SIZEOF_SIZE_T := by
  simp [malloc]

/-- The zeroing loop inside a block that holds at least `apc` words. -/
theorem zero_loop_spec (apc : Nat) (b : Block) (h : apc ≤ b.words.length) :
    ∃ b', for_loop (fun k b => Block.store b k 0) apc b = some b' ∧ b'.size = b.size ∧
      b'.words.length = b.words.length ∧ ∀ k, k < apc → b'.words[k]? = some 0 := by
  have key := for_loop_inv (fun k b => Block.store b k 0)
    (fun K t => t.size = b.size ∧ t.words.length = b.words.length ∧
      ∀ k, k < K → t.words[k]? = some 0)
    apc b ⟨rfl, rfl, fun k hk => absurd hk (Nat.not_lt_zero k)⟩
    (by
      intro K t hK ⟨hs, hl, hz⟩
      have hlt : K < t.words.length := by omega
      refine ⟨{ t with words := t.words.set K 0 }, by simp [Block.store, hlt], hs,
        by simp [hl], fun k hk => ?_⟩
      simp only [List.getElem?_set]
      by_cases hkK : K = k
      · subst hkK; simp [hlt]
      · simp only [if_neg hkK]
        exact hz k (by omega))
  exact key

/-- The zeroing loop leaves the block when asked for more words than it holds. -/
theorem zero_loop_none (apc : Nat) (b : Block) (h : b.words.length < apc) :
    for_loop (fun k b => Block.store b k 0) apc b = none := by
  induction apc with
  | zero => omega
  | succ n ih =>
    rw [for_loop_succ]
    by_cases hn : b.words.length < n
    · rw [ih hn]; rfl
    · obtain ⟨b', hb', _, hl, _⟩ := zero_loop_spec n b (by omega)
      rw [hb']
      have : ¬ n < b'.words.length := by omega
      simp [Block.store, this]

/-- The allocation loop, when the zeroed words fit in a block: it is defined and
builds `clc` blocks of `cache_line_size` bytes whose first
`access_per_cache_line` words are 0. -/
theorem allocate_spec (s : settings) (clc : Nat) (junk : Nat → Nat → Nat)
    (h : s.access_per_cache_line * SIZEOF_SIZE_T ≤ s.cache_line_size) :
    ∃ mem, allocate s clc junk = some mem ∧ mem.length = clc ∧
      (∀ b, b ∈ mem → b.size = s.cache_line_size) ∧
      ∀ j k, j < clc → k < s.access_per_cache_line →
        Proc.word { memory_blocks := mem, trace := [] } j k = some 0 := by
  have hfit : s.access_per_cache_line ≤ s.cache_line_size / SIZEOF_SIZE_T :=
    (Nat.le_div_iff_mul_le (by decide)).2 h
  have key := for_loop_inv (allocate_block s junk)
    (fun J mem => mem.length = J ∧ (∀ b, b ∈ mem → b.size = s.cache_line_size) ∧
      ∀ j k, j < J → k < s.access_per_cache_line →
        Proc.word { memory_blocks := mem, trace := [] } j k = some 0)
    clc [] ⟨rfl, by simp, fun j k hj => absurd hj (Nat.not_lt_zero j)⟩
    (by
      intro J mem _ ⟨hlen, hsz, hw⟩
      obtain ⟨b', hb', hs', _, hz⟩ := zero_loop_spec s.access_per_cache_line
        (malloc s.cache_line_size (junk J)) (by rw [malloc_words_length]; exact hfit)
      refine ⟨mem ++ [b'], by simp [allocate_block, hb'], by simp [hlen], ?_, ?_⟩
      · intro b hb
        rcases List.mem_append.1 hb with hb | hb
        · exact hsz b hb
        · rw [List.mem_singleton.1 hb, hs', malloc_size]
      · intro j k hj hk
        unfold Proc.word
        simp only [List.getElem?_append]
        by_cases hjJ : j < J
        · have := hw j k hjJ hk
          unfold Proc.word at this
          simpa [hlen, hjJ] using this
        · have hjeq : j = J := by omega
          subst hjeq
          simp [hlen, hz k hk])
  exact key

/-! ## The timed section -/

theorem pass_then_yield_spec (s : settings) (clc : Nat) (q : Proc)
    (h : Ready clc s.access_per_cache_line q) :
    ∃ q', (touch_pass s clc q).map (fun r => r.record Event.sched_yield) = some q' ∧
      Effect clc s.access_per_cache_line
        (pass_events clc s.access_per_cache_line ++ [Event.sched_yield]) succ_size q q' := by
  obtain ⟨r, hr, he⟩ := touch_pass_spec s clc q h
  exact ⟨r.record Event.sched_yield, by rw [hr]; rfl, he.record _⟩

theorem Ready.after_record {clc apc : Nat} {p : Proc} (h : Ready clc apc p) (e : Event) :
    Ready clc apc (p.record e) := fun j k hj hk => h j k hj hk

theorem Effect.of_record (clc apc : Nat) (p : Proc) (e : Event) :
    Effect clc apc [e] id p (p.record e) := by
  simpa using (Effect.refl clc apc p).record e

/-- Timed section of a unit that works in the first loop. -/
theorem timed_section_working (s : settings) (is_child : Bool) (clc : Nat) (p : Proc)
    (hmode : (is_child && !s.concurrent_run) = false)
    (h : Ready clc s.access_per_cache_line p) :
    ∃ p', timed_section s is_child clc p = some p' ∧
      Effect clc s.access_per_cache_line
        (working_trace clc s.access_per_cache_line s.yield_count)
        (succ_size^[s.yield_count]) p p' := by
  have h0 := Effect.of_record clc s.access_per_cache_line p Event.time_start
  obtain ⟨p1, hp1, he1⟩ := repeat_effect clc s.access_per_cache_line
    (fun q => (touch_pass s clc q).map (fun r => r.record Event.sched_yield))
    (pass_events clc s.access_per_cache_line ++ [Event.sched_yield]) succ_size
    (fun q hq => pass_then_yield_spec s clc q hq) s.yield_count
    (p.record Event.time_start) (h.after_record _)
  refine ⟨(p1.record Event.time_middle).record Event.time_finished, ?_, ?_⟩
  · simp only [timed_section, first_half, second_half, hmode]
    simp only [Bool.false_eq_true, if_false]
    rw [hp1]; rfl
  · have := ((h0.trans he1).record Event.time_middle).record Event.time_finished
    simpa [working_trace] using this

/-- Timed section of the child in sequential mode. -/
theorem timed_section_deferred (s : settings) (clc : Nat) (p : Proc)
    (hmode : s.concurrent_run = false)
    (h : Ready clc s.access_per_cache_line p) :
    ∃ p', timed_section s true clc p = some p' ∧
      Effect clc s.access_per_cache_line
        (deferred_trace clc s.access_per_cache_line s.yield_count)
        (succ_size^[s.yield_count]) p p' := by
  have h0 := Effect.of_record clc s.access_per_cache_line p Event.time_start
  obtain ⟨p1, hp1, he1⟩ := repeat_effect clc s.access_per_cache_line
    (fun q => some (q.record Event.sched_yield)) [Event.sched_yield] id
    (fun q _ => ⟨_, rfl, Effect.of_record clc _ q _⟩) s.yield_count
    (p.record Event.time_start) (h.after_record _)
  have hr1 : Ready clc s.access_per_cache_line (p1.record Event.time_middle) :=
    ((he1.ready (h.after_record _)).after_record _)
  obtain ⟨p2, hp2, he2⟩ := repeat_effect clc s.access_per_cache_line
    (touch_pass s clc) (pass_events clc s.access_per_cache_line) succ_size
    (fun q hq => touch_pass_spec s clc q hq) s.yield_count
    (p1.record Event.time_middle) hr1
  refine ⟨p2.record Event.time_finished, ?_, ?_⟩
  · simp only [timed_section, first_half, second_half, hmode]
    simp only [Bool.not_false, Bool.and_self, if_true]
    rw [hp1]
    simp only [Option.bind]
    rw [hp2]
  · have := (((h0.trans he1).record Event.time_middle).trans he2).record Event.time_finished
    simpa [deferred_trace, Function.iterate_id] using this

/-! ## The workload of one unit -/

theorem flatten_replicate_singleton (n : Nat) (e : Event) :
    (List.replicate n [e]).flatten = List.replicate n e := by
  induction n with
  | zero => rfl
  | succ n ih => simp [List.replicate_succ, ih]

/-- The workload of a configuration whose accesses are defined: the working set is
built with zeroed words and the timed section then runs on a ready working set. -/
theorem workload_eq (s : settings) (is_child : Bool) (junk : Nat → Nat → Nat)
    (hcls : 1 ≤ s.cache_line_size)
    (hfit : s.access_per_cache_line * SIZEOF_SIZE_T ≤ s.cache_line_size) :
    ∃ mem, allocate s (s.memory_total / s.cache_line_size) junk = some mem ∧
      workload s is_child junk =
        timed_section s is_child (s.memory_total / s.cache_line_size)
          { memory_blocks := mem, trace := [] } ∧
      ∀ j k, j < s.memory_total / s.cache_line_size → k < s.access_per_cache_line →
        Proc.word { memory_blocks := mem, trace := [] } j k = some 0 := by
  obtain ⟨mem, hmem, _, _, hz⟩ := allocate_spec s (s.memory_total / s.cache_line_size) junk hfit
  refine ⟨mem, hmem, ?_, hz⟩
  have hne : ¬ s.cache_line_size = 0 := by omega
  simp [workload, cache_line_count, hne, hmem]

/-- C1 (as amended): in concurrent mode, for both roles and every configuration
with `cache_line_size ≥ 1` whose `access_per_cache_line` words fit in a block, the
workload is defined and its history is exactly: `time_start`, then `yield_count`
times (one pass followed by one `sched_yield`), then `time_middle` and directly
`time_finished`. A pass increments each of the first `access_per_cache_line`
words of each of the `memory_total / cache_line_size` blocks exactly once and
nothing else, and every such word ends with the value `yield_count`. -/
theorem concurrent_workload_passes (s : settings) (is_child : Bool) (junk : Nat → Nat → Nat)
    (hmode : s.concurrent_run = true) (hcls : 1 ≤ s.cache_line_size)
    (hfit : s.access_per_cache_line * SIZEOF_SIZE_T ≤ s.cache_line_size)
    (hyc : s.yield_count < SIZE_RANGE) :
    cache_line_count s = some (s.memory_total / s.cache_line_size) ∧
    ∃ p, workload s is_child junk = some p ∧
      p.trace = [Event.time_start] ++
        (List.replicate s.yield_count
          (pass_events (s.memory_total / s.cache_line_size) s.access_per_cache_line ++
            [Event.sched_yield])).flatten ++
        [Event.time_middle] ++ [Event.time_finished] ∧
      (∀ j k, j < s.memory_total / s.cache_line_size → k < s.access_per_cache_line →
        List.count (Event.incr j k)
          (pass_events (s.memory_total / s.cache_line_size) s.access_per_cache_line) = 1) ∧
      (∀ e, e ∈ pass_events (s.memory_total / s.cache_line_size) s.access_per_cache_line →
        ∃ j k, j < s.memory_total / s.cache_line_size ∧ k < s.access_per_cache_line ∧
          e = Event.incr j k) ∧
      (pass_events (s.memory_total / s.cache_line_size) s.access_per_cache_line).length =
        s.memory_total / s.cache_line_size * s.access_per_cache_line ∧
      (∀ j k, j < s.memory_total / s.cache_line_size → k < s.access_per_cache_line →
        p.word j k = some s.yield_count) := by
  obtain ⟨mem, _, hw, hz⟩ := workload_eq s is_child junk hcls hfit
  have hready : Ready (s.memory_total / s.cache_line_size) s.access_per_cache_line
      { memory_blocks := mem, trace := [] } := fun j k hj hk => by rw [hz j k hj hk]; rfl
  obtain ⟨p, hp, htr, hwd⟩ := timed_section_working s is_child
    (s.memory_total / s.cache_line_size) _ (by simp [hmode]) hready
  refine ⟨by simp [cache_line_count]; omega, p, by rw [hw, hp], by simpa [working_trace] using htr,
    fun j k hj hk => by rw [count_pass_events, if_pos ⟨hj, hk⟩],
    fun e he => (mem_pass_events _ _ e).1 he, length_pass_events _ _, fun j k hj hk => ?_⟩
  rw [hwd j k, if_pos ⟨hj, hk⟩, hz j k hj hk]
  simp [succ_size_iterate _ hyc]

/-- C2 (as amended): in sequential mode, for every configuration with
`cache_line_size ≥ 1` whose `access_per_cache_line` words fit in a block, both
workloads are defined. The parent's history is `time_start`, `yield_count` times
(one pass, one `sched_yield`), `time_middle`, `time_finished`. The child's history is
`time_start`, `yield_count` yields and no increment, `time_middle`, `yield_count`
passes and no yield, `time_finished`. -/
theorem sequential_workload_passes (s : settings) (junk : Nat → Nat → Nat)
    (hmode : s.concurrent_run = false) (hcls : 1 ≤ s.cache_line_size)
    (hfit : s.access_per_cache_line * SIZEOF_SIZE_T ≤ s.cache_line_size) :
    (∃ p, workload s false junk = some p ∧
      p.trace = [Event.time_start] ++
        (List.replicate s.yield_count
          (pass_events (s.memory_total / s.cache_line_size) s.access_per_cache_line ++
            [Event.sched_yield])).flatten ++
        [Event.time_middle] ++ [Event.time_finished]) ∧
    (∃ p, workload s true junk = some p ∧
      p.trace = [Event.time_start] ++ List.replicate s.yield_count Event.sched_yield ++
        [Event.time_middle] ++
        (List.replicate s.yield_count
          (pass_events (s.memory_total / s.cache_line_size) s.access_per_cache_line)).flatten ++
        [Event.time_finished]) ∧
    (∀ e, e ∈ pass_events (s.memory_total / s.cache_line_size) s.access_per_cache_line →
      e ≠ Event.sched_yield) ∧
    (∀ j k, j < s.memory_total / s.cache_line_size → k < s.access_per_cache_line →
      List.count (Event.incr j k)
        (pass_events (s.memory_total / s.cache_line_size) s.access_per_cache_line) = 1) := by
  refine ⟨?_, ?_, ?_, fun j k hj hk => by rw [count_pass_events, if_pos ⟨hj, hk⟩]⟩
  · obtain ⟨mem, _, hw, hz⟩ := workload_eq s false junk hcls hfit
    have hready : Ready (s.memory_total / s.cache_line_size) s.access_per_cache_line
        { memory_blocks := mem, trace := [] } := fun j k hj hk => by rw [hz j k hj hk]; rfl
    obtain ⟨p, hp, htr, _⟩ := timed_section_working s false
      (s.memory_total / s.cache_line_size) _ (by simp) hready
    exact ⟨p, by rw [hw, hp], by simpa [working_trace] using htr⟩
  · obtain ⟨mem, _, hw, hz⟩ := workload_eq s true junk hcls hfit
    have hready : Ready (s.memory_total / s.cache_line_size) s.access_per_cache_line
        { memory_blocks := mem, trace := [] } := fun j k hj hk => by rw [hz j k hj hk]; rfl
    obtain ⟨p, hp, htr, _⟩ := timed_section_deferred s
      (s.memory_total / s.cache_line_size) _ hmode hready
    refine ⟨p, by rw [hw, hp], ?_⟩
    rw [htr, deferred_trace, flatten_replicate_singleton]
    simp
  · intro e he
    obtain ⟨j, k, _, _, rfl⟩ := (mem_pass_events _ _ e).1 he
    exact fun h => by cases h

/-- Witness of C1 at the end-to-end scenario: 16384 blocks, one increment each per
pass, eight passes. -/
theorem concurrent_workload_passes_witness :
    (scenario.concurrent_run = true ∧ 1 ≤ scenario.cache_line_size ∧
      scenario.access_per_cache_line * SIZEOF_SIZE_T ≤ scenario.cache_line_size ∧
      scenario.yield_count < SIZE_RANGE) ∧
    cache_line_count scenario = some 16384 ∧
    ∃ p, workload scenario true junk0 = some p ∧
      p.trace = [Event.time_start] ++
        (List.replicate 8 (pass_events 16384 1 ++ [Event.sched_yield])).flatten ++
        [Event.time_middle] ++ [Event.time_finished] ∧
      (pass_events 16384 1).length = 16384 ∧
      (∀ j k, j < 16384 → k < 1 → p.word j k = some 8) := by
  have h := concurrent_workload_passes scenario true junk0 (by decide) (by decide) (by decide)
    (by decide)
  obtain ⟨h1, p, h2, h3, _, _, h6, h7⟩ := h
  exact ⟨by decide, h1, p, h2, h3, h6, h7⟩

/-- Counterexample to C1 as stated: with 16 accesses per 64-byte line the zeroing
of the first block already leaves the block, in concurrent mode and for both
roles; and with a line size of 0 the block count itself is a division by zero. -/
theorem concurrent_workload_overlong :
    overlong.concurrent_run = true ∧ 1 ≤ overlong.cache_line_size ∧
      workload overlong false junk0 = none ∧ workload overlong true junk0 = none ∧
      lineless.concurrent_run = true ∧ workload lineless false junk0 = none := by
  decide

/-- Witness of C2: a sequential run of the scenario's geometry. -/
theorem sequential_workload_passes_witness :
    ({ scenario with concurrent_run := false }.concurrent_run = false ∧
      1 ≤ { scenario with concurrent_run := false }.cache_line_size ∧
      { scenario with concurrent_run := false }.access_per_cache_line * SIZEOF_SIZE_T ≤
        { scenario with concurrent_run := false }.cache_line_size) ∧
    ∃ p, workload { scenario with concurrent_run := false } true junk0 = some p ∧
      p.trace = [Event.time_start] ++ List.replicate 8 Event.sched_yield ++
        [Event.time_middle] ++ (List.replicate 8 (pass_events 16384 1)).flatten ++
        [Event.time_finished] :=
  ⟨by decide,
   (sequential_workload_passes { scenario with concurrent_run := false } junk0
      (by decide) (by decide) (by decide)).2.1⟩

/-- Counterexample to C2 as stated: in sequential mode with 16 accesses per 64-byte
line neither unit reaches its timed section, and with a line size of 0 the block
count itself is a division by zero. -/
theorem sequential_workload_overlong :
    { overlong with concurrent_run := false }.concurrent_run = false ∧
      workload { overlong with concurrent_run := false } false junk0 = none ∧
      workload { overlong with concurrent_run := false } true junk0 = none ∧
      workload { lineless with concurrent_run := false } true junk0 = none := by
  decide

/-! ## The working set -/

/-- C8 (as amended): for every configuration with `cache_line_size ≥ 1`,
`memory_total ≥ cache_line_size` and `access_per_cache_line` words fitting in a
block, the block count is `memory_total / cache_line_size ≥ 1` and the allocation
loop builds that many blocks, each of exactly `cache_line_size` bytes. -/
theorem working_set_blocks (s : settings) (junk : Nat → Nat → Nat)
    (hcls : 1 ≤ s.cache_line_size) (hmem : s.cache_line_size ≤ s.memory_total)
    (hfit : s.access_per_cache_line * SIZEOF_SIZE_T ≤ s.cache_line_size) :
    cache_line_count s = some (s.memory_total / s.cache_line_size) ∧
    1 ≤ s.memory_total / s.cache_line_size ∧
    ∃ blocks, allocate s (s.memory_total / s.cache_line_size) junk = some blocks ∧
      blocks.length = s.memory_total / s.cache_line_size ∧
      ∀ b, b ∈ blocks → b.size = s.cache_line_size := by
  obtain ⟨mem, hmem', hlen, hsz, _⟩ :=
    allocate_spec s (s.memory_total / s.cache_line_size) junk hfit
  refine ⟨by simp [cache_line_count]; omega, ?_, mem, hmem', hlen, hsz⟩
  exact (Nat.one_le_div_iff (by omega)).2 hmem

/-- Witness of C8 at the end-to-end scenario. -/
theorem working_set_blocks_witness :
    (1 ≤ scenario.cache_line_size ∧ scenario.cache_line_size ≤ scenario.memory_total ∧
      scenario.access_per_cache_line * SIZEOF_SIZE_T ≤ scenario.cache_line_size) ∧
    cache_line_count scenario = some 16384 ∧
    ∃ blocks, allocate scenario 16384 junk0 = some blocks ∧ blocks.length = 16384 ∧
      ∀ b, b ∈ blocks → b.size = 64 :=
  ⟨by decide, (working_set_blocks scenario junk0 (by decide) (by decide) (by decide)).1,
   (working_set_blocks scenario junk0 (by decide) (by decide) (by decide)).2.2⟩

/-- Counterexample to C8 as stated: a configuration with `cache_line_size ≥ 1` and
`memory_total ≥ cache_line_size` whose allocation loop is not defined, because it
zeroes 16 words in blocks of 64 bytes. -/
theorem working_set_overlong :
    1 ≤ overlong.cache_line_size ∧ overlong.cache_line_size ≤ overlong.memory_total ∧
      cache_line_count overlong = some 2 ∧ allocate overlong 2 junk0 = none := by
  decide

/-! ## Duration arithmetic -/

theorem wrap_long_eq (x : Int) (h1 : -(2 ^ 63) ≤ x) (h2 : x ≤ LONG_MAX) : wrap_long x = x := by
  unfold LONG_MAX at h2
  unfold wrap_long
  omega

theorem wrap_long_add_left (x y : Int) : wrap_long (wrap_long x + y) = wrap_long (x + y) := by
  unfold wrap_long
  omega

theorem split_ns_of_nonneg (n : Int) (h : 0 ≤ n) :
    split_ns n = { tv_sec := n / 1000000000, tv_nsec := n % 1000000000 } := by
  have h9 : NSEC_PER_SEC = 1000000000 := by decide
  unfold split_ns
  rw [h9, Int.tdiv_eq_ediv h (by decide), Int.tmod_eq_emod h (by decide)]

/-- Without overflow the averaged nanosecond count is the floor of the mean. -/
theorem time_diff_average_ns_eq (a b : timespec) (ha : a.normalised) (hb : b.normalised)
    (hfit : a.total_ns + b.total_ns ≤ LONG_MAX) :
    time_diff_average_ns a b = (a.total_ns + b.total_ns) / 2 := by
  obtain ⟨ha1, ha2, ha3⟩ := ha
  obtain ⟨hb1, hb2, hb3⟩ := hb
  unfold timespec.total_ns LONG_MAX at hfit
  have hL : LONG_MAX = 2 ^ 63 - 1 := rfl
  unfold time_diff_average_ns timespec.total_ns
  rw [wrap_long_eq (a.tv_sec + b.tv_sec) (by omega) (by rw [hL]; omega),
    wrap_long_eq ((a.tv_sec + b.tv_sec) * 1000) (by omega) (by rw [hL]; omega),
    wrap_long_eq ((a.tv_sec + b.tv_sec) * 1000 * 1000) (by omega) (by rw [hL]; omega),
    wrap_long_eq ((a.tv_sec + b.tv_sec) * 1000 * 1000 * 1000) (by omega) (by rw [hL]; omega),
    wrap_long_eq ((a.tv_sec + b.tv_sec) * 1000 * 1000 * 1000 + a.tv_nsec) (by omega)
      (by rw [hL]; omega),
    wrap_long_eq ((a.tv_sec + b.tv_sec) * 1000 * 1000 * 1000 + a.tv_nsec + b.tv_nsec)
      (by omega) (by rw [hL]; omega),
    Int.tdiv_eq_ediv (by omega) (by decide)]
  omega

/-- C5 (as amended): the averaging of `main` is commutative for every pair of
`timespec` values, and the average of a duration with itself is that duration
(same `tv_sec`, same `tv_nsec`) for every duration with `tv_sec ≥ 0` and
`0 ≤ tv_nsec < 10^9` whose doubled nanosecond total fits the 64-bit `long`. -/
theorem time_diff_average_comm_idem :
    (∀ a b : timespec, time_diff_average a b = time_diff_average b a) ∧
    (∀ a : timespec, a.normalised → 2 * a.total_ns ≤ LONG_MAX → time_diff_average a a = a) := by
  constructor
  · intro a b
    unfold time_diff_average time_diff_average_ns
    rw [wrap_long_add_left, wrap_long_add_left
      (wrap_long (wrap_long (wrap_long (wrap_long (b.tv_sec + a.tv_sec) * 1000) * 1000) * 1000)
        + b.tv_nsec),
      Int.add_comm a.tv_sec b.tv_sec, Int.add_right_comm]
  · intro a ha hfit
    have hns := time_diff_average_ns_eq a a ha ha (by omega)
    obtain ⟨h1, h2, h3⟩ := ha
    unfold time_diff_average
    rw [hns, split_ns_of_nonneg _ (by unfold timespec.total_ns; omega)]
    unfold timespec.total_ns
    cases a with
    | mk sec nsec =>
      simp only at h1 h2 h3 ⊢
      congr 1 <;> omega

/-- Witness of C5: durations of 1.5 s and 2.25 s. -/
theorem time_diff_average_comm_idem_witness :
    time_diff_average ⟨1, 500000000⟩ ⟨2, 250000000⟩ =
      time_diff_average ⟨2, 250000000⟩ ⟨1, 500000000⟩ ∧
    timespec.normalised ⟨1, 500000000⟩ ∧ 2 * timespec.total_ns ⟨1, 500000000⟩ ≤ LONG_MAX ∧
    time_diff_average ⟨1, 500000000⟩ ⟨1, 500000000⟩ = ⟨1, 500000000⟩ :=
  ⟨time_diff_average_comm_idem.1 _ _, by decide, by decide,
   time_diff_average_comm_idem.2 ⟨1, 500000000⟩ (by decide) (by decide)⟩

/-- Counterexample to C5 as stated: a duration of 4611686019 s has a nanosecond
total that fits the 64-bit `long`, but its average with itself is not itself,
because the sum formed first does not fit. -/
theorem time_diff_average_self_overflow :
    timespec.normalised ⟨4611686019, 0⟩ ∧ timespec.total_ns ⟨4611686019, 0⟩ ≤ LONG_MAX ∧
      time_diff_average ⟨4611686019, 0⟩ ⟨4611686019, 0⟩ = ⟨-4611686017, -854775808⟩ ∧
      time_diff_average ⟨4611686019, 0⟩ ⟨4611686019, 0⟩ ≠ ⟨4611686019, 0⟩ := by
  decide

/-- C6: for durations `a`, `b` with `tv_sec ≥ 0` and `0 ≤ tv_nsec < 10^9` whose
nanosecond totals `A`, `B` have a sum fitting the 64-bit `long`, the averaged
duration `r` has `r.tv_sec * 10^9 + r.tv_nsec = ⌊(A + B) / 2⌋` and
`0 ≤ r.tv_nsec < 10^9`, `0 ≤ r.tv_sec`, and lies between `min A B` and `max A B`. -/
theorem time_diff_average_mean (a b : timespec) (ha : a.normalised) (hb : b.normalised)
    (hfit : a.total_ns + b.total_ns ≤ LONG_MAX) :
    (time_diff_average a b).total_ns = (a.total_ns + b.total_ns) / 2 ∧
    (time_diff_average a b).normalised ∧
    min a.total_ns b.total_ns ≤ (time_diff_average a b).total_ns ∧
    (time_diff_average a b).total_ns ≤ max a.total_ns b.total_ns := by
  have hns := time_diff_average_ns_eq a b ha hb hfit
  obtain ⟨ha1, ha2, ha3⟩ := ha
  obtain ⟨hb1, hb2, hb3⟩ := hb
  have hA : 0 ≤ a.total_ns := by unfold timespec.total_ns; omega
  have hB : 0 ≤ b.total_ns := by unfold timespec.total_ns; omega
  unfold time_diff_average
  rw [hns, split_ns_of_nonneg _ (by omega)]
  generalize a.total_ns = A at *
  generalize b.total_ns = B at *
  unfold timespec.total_ns timespec.normalised
  simp only
  refine ⟨by omega, ⟨by omega, by omega, by omega⟩, ?_, ?_⟩
  · rcases le_total A B with h | h
    · rw [min_eq_left h]; omega
    · rw [min_eq_right h]; omega
  · rcases le_total A B with h | h
    · rw [max_eq_right h]; omega
    · rw [max_eq_left h]; omega

/-- Witness of C6: durations of 1.5 s and 2.25 s average to 1.875 s. -/
theorem time_diff_average_mean_witness :
    (timespec.normalised ⟨1, 500000000⟩ ∧ timespec.normalised ⟨2, 250000000⟩ ∧
      timespec.total_ns ⟨1, 500000000⟩ + timespec.total_ns ⟨2, 250000000⟩ ≤ LONG_MAX) ∧
    (time_diff_average ⟨1, 500000000⟩ ⟨2, 250000000⟩).total_ns =
      (timespec.total_ns ⟨1, 500000000⟩ + timespec.total_ns ⟨2, 250000000⟩) / 2 :=
  ⟨by decide, (time_diff_average_mean ⟨1, 500000000⟩ ⟨2, 250000000⟩ (by decide) (by decide)
      (by decide)).1⟩

/-! ## No passes -/

/-- C7: with `yield_count = 0`, in both modes and for both roles, the timed section
is defined on every working set and consists of the three clock readings only (no
increment, no yield, the working set unchanged); the whole workload is the
allocation followed by those three readings, so nothing after the allocation can be
undefined. When the three readings of a unit coincide, both of its durations are
0 s 0 ns, and the average of two such totals is 0 s 0 ns. -/
theorem yield_count_zero (s : settings) (is_child : Bool) (clc : Nat) (p : Proc)
    (junk : Nat → Nat → Nat) (hyc : s.yield_count = 0) :
    timed_section s is_child clc p =
      some { p with trace := p.trace ++
        [Event.time_start, Event.time_middle, Event.time_finished] } ∧
    workload s is_child junk =
      ((cache_line_count s).bind fun n => allocate s n junk).map
        (fun mem => { memory_blocks := mem,
                      trace := [Event.time_start, Event.time_middle, Event.time_finished] }) ∧
    (∀ t : timespec, time_diff t t = ⟨0, 0⟩) ∧
    (∀ t u : timespec, time_diff_average (time_diff t t) (time_diff u u) = ⟨0, 0⟩) := by
  have hts : ∀ q : Proc, timed_section s is_child clc q =
      some { q with trace := q.trace ++
        [Event.time_start, Event.time_middle, Event.time_finished] } := by
    intro q
    cases hb : (is_child && !s.concurrent_run) <;>
      simp [timed_section, first_half, second_half, hyc, for_loop, hb, Proc.record]
  have hdiff : ∀ t : timespec, time_diff t t = ⟨0, 0⟩ := by
    intro t
    simp only [time_diff, time_diff_ns, sub_self]
    decide
  refine ⟨hts p, ?_, hdiff, fun t u => by rw [hdiff t, hdiff u]; decide⟩
  unfold workload
  cases h1 : cache_line_count s with
  | none => rfl
  | some n =>
    have hq : ∀ q : Proc, timed_section s is_child n q =
        some { q with trace := q.trace ++
          [Event.time_start, Event.time_middle, Event.time_finished] } := by
      intro q
      cases hb : (is_child && !s.concurrent_run) <;>
        simp [timed_section, first_half, second_half, hyc, for_loop, hb, Proc.record]
    simp only [Option.some_bind, hq]
    cases h2 : allocate s n junk with
    | none => rfl
    | some mem => simp

/-- Witness of C7: the scenario with no pass, as the child of a sequential run. -/
theorem yield_count_zero_witness :
    { scenario with yield_count := 0, concurrent_run := false }.yield_count = 0 ∧
    timed_section { scenario with yield_count := 0, concurrent_run := false } true 16384
        ⟨[], []⟩ =
      some ⟨[], [Event.time_start, Event.time_middle, Event.time_finished]⟩ :=
  ⟨rfl, (yield_count_zero { scenario with yield_count := 0, concurrent_run := false } true
      16384 ⟨[], []⟩ junk0 rfl).1⟩

/-! ## The barrier -/

theorem Barrier.step_reachable (p c : Nat) (b : Barrier) (who : Bool)
    (h : Barrier.Reachable p c b) : Barrier.Reachable p c (Barrier.step p c b who) := by
  unfold Barrier.Reachable at h ⊢
  rcases h with h | h | h | h | h | h | h <;> subst h <;> cases who <;>
    simp [Barrier.step, synchronize_write, synchronize_read]

theorem Barrier.run_append (p c : Nat) (s1 s2 : List Bool) :
    Barrier.run p c (s1 ++ s2) = s2.foldl (Barrier.step p c) (Barrier.run p c s1) := by
  simp [Barrier.run, List.foldl_append]

theorem Barrier.run_reachable (p c : Nat) (sched : List Bool) :
    Barrier.Reachable p c (Barrier.run p c sched) := by
  induction sched using List.reverseRecOn with
  | nil => exact Or.inl rfl
  | append_singleton l a ih =>
    rw [Barrier.run_append]
    exact Barrier.step_reachable p c _ a ih

/-- From every reachable state one more round of parent, child, parent, child
completes the rendezvous. -/
theorem Barrier.round_completes (p c : Nat) (b : Barrier) (h : Barrier.Reachable p c b) :
    [false, true, false, true].foldl (Barrier.step p c) b =
      ⟨⟨[], []⟩, SyncPc.returned (if c ≠ p then -1 else 0),
        SyncPc.returned (if p ≠ c then -1 else 0)⟩ := by
  unfold Barrier.Reachable at h
  rcases h with h | h | h | h | h | h | h <;> subst h <;>
    simp [Barrier.step, synchronize_write, synchronize_read]

/-- A unit whose barrier call returned 0 runs the workload. -/
theorem main_unit_zero (s : settings) (is_child : Bool) (junk : Nat → Nat → Nat) :
    main_unit s is_child junk 0 =
      match workload s is_child junk with
      | none => Outcome.undefined
      | some p => Outcome.finished p := by
  unfold main_unit workload
  cases h1 : cache_line_count s with
  | none => rfl
  | some n =>
    cases h2 : allocate s n junk with
    | none => simp [h2]
    | some mem => simp [h2]

/-- C3: for all tags `p` (parent) and `c` (child), starting from empty pipes.
The parent's write appends `p` to the parent pipe and its read takes the head of
the child pipe; the child's write appends `c` to the child pipe and its read takes
the head of the parent pipe. Under every schedule, one more round of steps
completes both calls with both pipes empty, and every value a call returns is 0
when `p = c` and -1 otherwise. A unit of `main` whose call returned non-zero never
reaches the timed section: it exits with failure with no event recorded. -/
theorem synchronize_rendezvous (p c : Nat) :
    (∀ pipes : Pipes, synchronize_write false p pipes =
        { pipes with parent_pipe := pipes.parent_pipe ++ [p] }) ∧
    (∀ pipes : Pipes, synchronize_write true c pipes =
        { pipes with child_pipe := pipes.child_pipe ++ [c] }) ∧
    (∀ (buf : Nat) (pp rest : List Nat), synchronize_read false p ⟨pp, buf :: rest⟩ =
        some (if buf ≠ p then -1 else 0, ⟨pp, rest⟩)) ∧
    (∀ (buf : Nat) (cp rest : List Nat), synchronize_read true c ⟨buf :: rest, cp⟩ =
        some (if buf ≠ c then -1 else 0, ⟨rest, cp⟩)) ∧
    (∀ sched : List Bool, Barrier.run p c (sched ++ [false, true, false, true]) =
        ⟨⟨[], []⟩, SyncPc.returned (if p = c then 0 else -1),
          SyncPc.returned (if p = c then 0 else -1)⟩) ∧
    (∀ (sched : List Bool) (r : Int),
        ((Barrier.run p c sched).parent = SyncPc.returned r ∨
          (Barrier.run p c sched).child = SyncPc.returned r) →
        (r = 0 ↔ p = c) ∧ (p ≠ c → r = -1)) ∧
    (∀ (s : settings) (is_child : Bool) (junk : Nat → Nat → Nat) (r : Int), r ≠ 0 →
        (∀ q, main_unit s is_child junk r ≠ Outcome.finished q) ∧
        (∀ n mem, cache_line_count s = some n → allocate s n junk = some mem →
          main_unit s is_child junk r = Outcome.exit_failure [])) := by
  refine ⟨fun _ => rfl, fun _ => rfl, fun _ _ _ => rfl, fun _ _ _ => rfl, ?_, ?_, ?_⟩
  · intro sched
    rw [Barrier.run_append, Barrier.round_completes p c _ (Barrier.run_reachable p c sched)]
    by_cases h : p = c
    · subst h; simp
    · have h' : ¬ c = p := fun e => h e.symm
      simp [h, h']
  · intro sched r hr
    have hreach := Barrier.run_reachable p c sched
    unfold Barrier.Reachable at hreach
    by_cases h : p = c
    · have h' : c = p := h.symm
      rcases hreach with e | e | e | e | e | e | e <;> rw [e] at hr <;>
        simp [h] at hr <;> simp [h, ← hr]
    · have h' : ¬ c = p := fun e => h e.symm
      rcases hreach with e | e | e | e | e | e | e <;> rw [e] at hr <;>
        simp [h, h'] at hr <;> simp [h, ← hr]
  · intro s is_child junk r hr
    constructor
    · intro q
      unfold main_unit
      cases h1 : cache_line_count s with
      | none => simp
      | some n =>
        cases h2 : allocate s n junk with
        | none => simp [h2]
        | some mem => simp [h2, hr]
    · intro n mem h1 h2
      simp [main_unit, h1, h2, hr]

/-- Witness of C3: the parent at tag 49 (the character 1) against a child at tag
50, both writes scheduled first. -/
theorem synchronize_rendezvous_witness :
    Barrier.run 49 50 [false, true, false, true] =
      ⟨⟨[], []⟩, SyncPc.returned (-1), SyncPc.returned (-1)⟩ ∧
    main_unit scenario false junk0 (-1) ≠ Outcome.finished ⟨[], [Event.time_start]⟩ :=
  ⟨(synchronize_rendezvous 49 50).2.2.2.2.1 [],
   ((synchronize_rendezvous 49 50).2.2.2.2.2.2 scenario false junk0 (-1) (by decide)).1 _⟩


/-! ## Placement -/

theorem wrap_int_eq (x : Int) (h1 : -2147483648 ≤ x) (h2 : x < 2147483648) : wrap_int x = x := by
  unfold wrap_int
  omega

/-- C4, the code at the claim's inputs: `set_affinity(i)` never requests CPU `i`.
For `1 ≤ i ≤ 1024` it requests exactly CPU `i - 1`; for `i = 0`, the index of the
end-to-end scenario, it requests the empty set. The frequency and cache probes use
index `i` itself. -/
theorem set_affinity_requests_predecessor :
    (∀ s : settings, s.cpu < 2147483648 → probed_cpu s ∉ configure_affinity_mask s) ∧
    (∀ s : settings, 1 ≤ s.cpu → s.cpu ≤ 1024 →
      configure_affinity_mask s = {s.cpu - 1} ∧ probed_cpu s = s.cpu) ∧
    configure_affinity_mask scenario = ∅ ∧
    configure_affinity_mask { scenario with cpu := 3 } = {2} := by
  refine ⟨?_, ?_, by decide, ?_⟩
  · intro s hs
    have e1 : wrap_int (s.cpu : Int) = s.cpu := wrap_int_eq _ (by omega) (by omega)
    have e2 : wrap_int ((s.cpu : Int) - 1) = (s.cpu : Int) - 1 :=
      wrap_int_eq _ (by omega) (by omega)
    simp only [configure_affinity_mask, set_affinity_mask, e1, e2, CPU_SET, CPU_ZERO,
      CPU_SETSIZE, probed_cpu]
    split
    · rw [Finset.mem_insert]
      simp only [Finset.not_mem_empty, or_false]
      omega
    · exact Finset.not_mem_empty _
  · intro s h1 h2
    have e1 : wrap_int (s.cpu : Int) = s.cpu := wrap_int_eq _ (by omega) (by omega)
    have e2 : wrap_int ((s.cpu : Int) - 1) = (s.cpu : Int) - 1 :=
      wrap_int_eq _ (by omega) (by omega)
    refine ⟨?_, rfl⟩
    simp only [configure_affinity_mask, set_affinity_mask, e1, e2, CPU_SET, CPU_ZERO,
      CPU_SETSIZE]
    rw [if_pos ⟨by omega, by omega⟩]
    have : ((s.cpu : Int) - 1).toNat = s.cpu - 1 := by omega
    rw [this]
    rfl
  · simp [configure_affinity_mask, set_affinity_mask, CPU_SET, CPU_ZERO, CPU_SETSIZE, wrap_int,
      scenario]

/-! ## Frequency drift -/

theorem cpu_freq_to_str_ok (f : Int) : (cpu_freq_to_str f).1 = 0 := by
  simp only [cpu_freq_to_str]
  rw [if_neg]
  exact not_lt.2 (Int.ofNat_nonneg _)

/-- C9: for every pre-run frequency `settings.cpu_freq` and post-run reading
`cpu_freq_finish`, and whatever the other inputs, the parent prints the drift
warning exactly when the two differ and prints nothing otherwise; the results
record it goes on to build is the one it builds without drift, and when both
`getrusage` calls succeed that record holds the average, the two totals, the two
midpoint durations and the four counters. -/
theorem drift_warning_keeps_results (s : settings)
    (time_diff_middle time_diff time_diff_middle_child time_diff_child : timespec)
    (cpu_freq_finish : Int) (rusage_parent rusage_child : Option rusage) :
    (drift_warning false ∈
        (main_report s false time_diff_middle time_diff time_diff_middle_child time_diff_child
          cpu_freq_finish rusage_parent rusage_child).out ↔ s.cpu_freq ≠ cpu_freq_finish) ∧
    (s.cpu_freq = cpu_freq_finish →
        (main_report s false time_diff_middle time_diff time_diff_middle_child time_diff_child
          cpu_freq_finish rusage_parent rusage_child).out = []) ∧
    (main_report s false time_diff_middle time_diff time_diff_middle_child time_diff_child
        cpu_freq_finish rusage_parent rusage_child).results =
      (main_report s false time_diff_middle time_diff time_diff_middle_child time_diff_child
        s.cpu_freq rusage_parent rusage_child).results ∧
    (∀ rp rc, rusage_parent = some rp → rusage_child = some rc →
      (main_report s false time_diff_middle time_diff time_diff_middle_child time_diff_child
        cpu_freq_finish rusage_parent rusage_child).results =
      some { time := time_diff_average time_diff time_diff_child,
             time_parent := time_diff,
             time_child := time_diff_child,
             time_middle_parent := time_diff_middle,
             time_middle_child := time_diff_middle_child,
             vcsw_parent := size_of_long rp.ru_nvcsw,
             ivcsw_parent := size_of_long rp.ru_nivcsw,
             vcsw_child := size_of_long rc.ru_nvcsw,
             ivcsw_child := size_of_long rc.ru_nivcsw }) := by
  by_cases h : s.cpu_freq = cpu_freq_finish
  · subst h
    cases rusage_parent <;> cases rusage_child <;>
      simp [main_report, collect_results, Report.out, Report.results]
  · cases rusage_parent <;> cases rusage_child <;>
      simp [main_report, collect_results, Report.out, Report.results, h, cpu_freq_to_str_ok]

/-- Witness of C9: a drift from 2.4 GHz to 1.8 GHz in the scenario run. -/
theorem drift_warning_keeps_results_witness :
    (main_report scenario false ⟨0, 5⟩ ⟨0, 7⟩ ⟨0, 6⟩ ⟨0, 9⟩ 1800000
        (some ⟨8, 0⟩) (some ⟨8, 1⟩)).results =
      some { time := time_diff_average ⟨0, 7⟩ ⟨0, 9⟩, time_parent := ⟨0, 7⟩,
             time_child := ⟨0, 9⟩, time_middle_parent := ⟨0, 5⟩, time_middle_child := ⟨0, 6⟩,
             vcsw_parent := size_of_long 8, ivcsw_parent := size_of_long 0,
             vcsw_child := size_of_long 8, ivcsw_child := size_of_long 1 } :=
  (drift_warning_keeps_results scenario ⟨0, 5⟩ ⟨0, 7⟩ ⟨0, 6⟩ ⟨0, 9⟩ 1800000
    (some ⟨8, 0⟩) (some ⟨8, 1⟩)).2.2.2 ⟨8, 0⟩ ⟨8, 1⟩ rfl rfl

/-! ## The cache probe -/

/-- A positive result of `get_cache_size` comes from a `Data` or `Unified` entry. -/
theorem get_cache_size_pos_kind (e : cache_dirent) (v : Int) (b : Bool)
    (h : get_cache_size e = some (v, b)) (hv : 0 < v) :
    cache_type e = some "Data".toList ∨ cache_type e = some "Unified".toList := by
  unfold get_cache_size at h
  unfold cache_type
  cases ht : e.type_file with
  | none => simp [ht] at h; omega
  | some t =>
    simp only [ht] at h
    cases hb : type_buffer t with
    | none => simp [hb] at h
    | some buf =>
      simp only [hb] at h
      simp only [Option.some_bind, hb, Option.map_some']
      by_cases h1 : c_string buf = "Instruction".toList
      · rw [if_pos h1] at h
        simp only [Option.some.injEq, Prod.mk.injEq] at h
        omega
      · by_cases h2 : c_string buf = "Data".toList
        · left; rw [h2]
        · by_cases h3 : c_string buf = "Unified".toList
          · right; rw [h3]
          · rw [if_neg h1, if_pos ⟨h2, h3⟩] at h
            simp only [Option.some.injEq, Prod.mk.injEq] at h
            omega

/-- An `Instruction` entry gives 0. -/
theorem get_cache_size_instruction (e : cache_dirent)
    (h : cache_type e = some "Instruction".toList) : get_cache_size e = some (0, false) := by
  unfold cache_type at h
  unfold get_cache_size
  cases ht : e.type_file with
  | none => simp [ht] at h
  | some t =>
    simp only [ht, Option.some_bind] at h
    cases hb : type_buffer t with
    | none => simp [hb] at h
    | some buf =>
      simp only [hb, Option.map_some', Option.some.injEq] at h
      simp only [hb]
      rw [if_pos h]

/-- The `readdir` loop from any state of its variables: it is defined, keeps `errno`
and the length of the array, stores every recorded entry at its index, leaves the
other slots alone and ends with the highest recorded index (or the initial one). -/
theorem get_cache_sizes_loop_spec (es : List cache_dirent) :
    ∀ st : probe_state,
    (es.filterMap cache_dirent.d_index).Nodup →
    (∀ e, e ∈ es → ∀ i, e.d_index = some i → 0 ≤ i ∧ i.toNat < st.cache_sizes.length) →
    (∀ e, e ∈ es → ∀ i, e.d_index = some i → ∃ v, get_cache_size e = some (v, false)) →
    ∃ fin, get_cache_sizes_loop es st = some fin ∧ fin.errno = st.errno ∧
      fin.cache_sizes.length = st.cache_sizes.length ∧
      st.highest_index ≤ fin.highest_index ∧
      (∀ e, e ∈ es → ∀ i v, recorded e i v →
        fin.cache_sizes[i.toNat]? = some v.toNat ∧ i ≤ fin.highest_index) ∧
      (∀ k : Nat, (∀ e, e ∈ es → ∀ v, ¬ recorded e k v) →
        fin.cache_sizes[k]? = st.cache_sizes[k]?) ∧
      (fin.highest_index = st.highest_index ∨
        ∃ e, e ∈ es ∧ ∃ v, recorded e fin.highest_index v) := by
  induction es with
  | nil =>
    intro st _ _ _
    exact ⟨st, rfl, rfl, rfl, le_refl _, fun e he => absurd he (List.not_mem_nil e),
      fun _ _ => rfl, Or.inl rfl⟩
  | cons e es ih =>
    intro st hnd hrange hok
    have hrange' : ∀ st1 : probe_state, st1.cache_sizes.length = st.cache_sizes.length →
        ∀ x, x ∈ es → ∀ i, x.d_index = some i → 0 ≤ i ∧ i.toNat < st1.cache_sizes.length := by
      intro st1 hl x hx i hi
      rw [hl]
      exact hrange x (List.mem_cons_of_mem _ hx) i hi
    have hok' : ∀ x, x ∈ es → ∀ i, x.d_index = some i → ∃ v, get_cache_size x = some (v, false) :=
      fun x hx => hok x (List.mem_cons_of_mem _ hx)
    cases hidx : e.d_index with
    | none =>
      have hnd' : (es.filterMap cache_dirent.d_index).Nodup := by
        simpa [List.filterMap_cons, hidx] using hnd
      obtain ⟨fin, hfin, herr, hlen, hhi, hrec, hkeep, hmax⟩ :=
        ih st hnd' (hrange' st rfl) hok'
      have hnot : ∀ i v, ¬ recorded e i v := by
        intro i v hr
        rw [hr.1] at hidx
        cases hidx
      refine ⟨fin, by simp [get_cache_sizes_loop, get_cache_sizes_step, hidx, hfin], herr, hlen,
        hhi, ?_, ?_, ?_⟩
      · intro x hx i v hr
        rcases List.mem_cons.1 hx with rfl | hx
        · exact absurd hr (hnot i v)
        · exact hrec x hx i v hr
      · intro k hk
        exact hkeep k (fun x hx => hk x (List.mem_cons_of_mem _ hx))
      · rcases hmax with h | ⟨x, hx, v, hr⟩
        · exact Or.inl h
        · exact Or.inr ⟨x, List.mem_cons_of_mem _ hx, v, hr⟩
    | some i =>
      obtain ⟨v, hv⟩ := hok e (List.mem_cons_self _ _) i hidx
      obtain ⟨hi0, hilt⟩ := hrange e (List.mem_cons_self _ _) i hidx
      have hnd2 : i ∉ es.filterMap cache_dirent.d_index ∧
          (es.filterMap cache_dirent.d_index).Nodup := by
        simpa [List.filterMap_cons, hidx] using hnd
      have hfresh : ∀ x, x ∈ es → ∀ w, ¬ recorded x i w := by
        intro x hx w hr
        exact hnd2.1 (List.mem_filterMap.2 ⟨x, hx, hr.1⟩)
      have hcast : ((i.toNat : Nat) : Int) = i := Int.toNat_of_nonneg hi0
      by_cases hpos : 0 < v
      · have hstep : get_cache_sizes_step st e =
            some { cache_sizes := st.cache_sizes.set i.toNat v.toNat,
                   highest_index := if i > st.highest_index then i else st.highest_index,
                   errno := st.errno } := by
          simp [get_cache_sizes_step, hidx, hv, hpos, hi0, hilt]
        obtain ⟨fin, hfin, herr, hlen, hhi, hrec, hkeep, hmax⟩ :=
          ih { cache_sizes := st.cache_sizes.set i.toNat v.toNat,
               highest_index := if i > st.highest_index then i else st.highest_index,
               errno := st.errno } hnd2.2 (hrange' _ (by simp)) hok'
        have hslot : fin.cache_sizes[i.toNat]? = some v.toNat := by
          rw [hkeep i.toNat (by rw [hcast]; exact hfresh)]
          simp [List.getElem?_set, hilt]
        have hle1 : st.highest_index ≤ fin.highest_index := by
          refine le_trans ?_ hhi
          simp only
          split <;> omega
        have hle2 : i ≤ fin.highest_index := by
          refine le_trans ?_ hhi
          simp only
          split <;> omega
        refine ⟨fin, by simp [get_cache_sizes_loop, hstep, hfin], herr, by simpa using hlen,
          hle1, ?_, ?_, ?_⟩
        · intro x hx j w hr
          rcases List.mem_cons.1 hx with rfl | hx
          · have hj : j = i := by
              have := hr.1; rw [hidx] at this; cases this; rfl
            have hw : w = v := by
              have := hr.2.1; rw [hv] at this; cases this; rfl
            subst hj; subst hw
            exact ⟨hslot, hle2⟩
          · exact hrec x hx j w hr
        · intro k hk
          rw [hkeep k (fun x hx => hk x (List.mem_cons_of_mem _ hx))]
          have hne : ¬ i.toNat = k := by
            intro hik
            apply hk e (List.mem_cons_self _ _) v
            rw [← hik, hcast]
            exact ⟨hidx, hv, hpos⟩
          simp [List.getElem?_set, hne]
        · rcases hmax with h | ⟨x, hx, w, hr⟩
          · simp only at h
            by_cases hgt : i > st.highest_index
            · rw [if_pos hgt] at h
              exact Or.inr ⟨e, List.mem_cons_self _ _, v, by rw [h]; exact ⟨hidx, hv, hpos⟩⟩
            · rw [if_neg hgt] at h
              exact Or.inl h
          · exact Or.inr ⟨x, List.mem_cons_of_mem _ hx, w, hr⟩
      · have hstep : get_cache_sizes_step st e = some st := by
          simp [get_cache_sizes_step, hidx, hv, hpos]
        obtain ⟨fin, hfin, herr, hlen, hhi, hrec, hkeep, hmax⟩ :=
          ih st hnd2.2 (hrange' st rfl) hok'
        have hnot : ∀ j w, ¬ recorded e j w := by
          intro j w hr
          have := hr.2.1; rw [hv] at this; cases this
          exact hpos hr.2.2
        refine ⟨fin, by simp [get_cache_sizes_loop, hstep, hfin], herr, hlen, hhi, ?_, ?_, ?_⟩
        · intro x hx j w hr
          rcases List.mem_cons.1 hx with rfl | hx
          · exact absurd hr (hnot j w)
          · exact hrec x hx j w hr
        · intro k hk
          exact hkeep k (fun x hx => hk x (List.mem_cons_of_mem _ hx))
        · rcases hmax with h | ⟨x, hx, w, hr⟩
          · exact Or.inl h
          · exact Or.inr ⟨x, List.mem_cons_of_mem _ hx, w, hr⟩

/-- The function `get_cache_sizes` in terms of what `get_cache_size` returns for each
entry: for entries with distinct indices inside the array, each probed without a
failing `open` or `read`, the entries for which `get_cache_size` is positive are
stored at their index, the return value is one more than the highest such index
(0 when there is none) and the other slots stay zero. -/
theorem get_cache_sizes_of_probes (es : List cache_dirent) (n : Nat) (hn : n < 2147483648)
    (hdistinct : (es.filterMap cache_dirent.d_index).Nodup)
    (hrange : ∀ e, e ∈ es → ∀ i, i ∈ e.d_index → 0 ≤ i ∧ i < (n : Int))
    (hok : ∀ e, e ∈ es → e.d_index ≠ none → (get_cache_size e).map Prod.snd = some false) :
    ∃ ret sizes, get_cache_sizes (some es) (List.replicate n 0) = some (ret, sizes) ∧
      sizes.length = n ∧
      (∀ e, e ∈ es → ∀ i v, recorded e i v →
        sizes[i.toNat]? = some v.toNat ∧ i + 1 ≤ ret ∧
        (cache_type e = some "Data".toList ∨ cache_type e = some "Unified".toList)) ∧
      ((ret = 0 ∧ ∀ e, e ∈ es → ∀ i v, ¬ recorded e i v) ∨
        ∃ e, e ∈ es ∧ ∃ v, recorded e (ret - 1) v) ∧
      (∀ e, e ∈ es → cache_type e = some "Instruction".toList → ∀ i v, ¬ recorded e i v) ∧
      (∀ k : Nat, k < n → (∀ e, e ∈ es → ∀ v, ¬ recorded e k v) → sizes[k]? = some 0) := by
  have hrange' : ∀ e, e ∈ es → ∀ i, e.d_index = some i →
      0 ≤ i ∧ i.toNat < (List.replicate n 0).length := by
    intro e he i hi
    have := hrange e he i (by rw [hi]; exact rfl)
    rw [List.length_replicate]
    omega
  have hok' : ∀ e, e ∈ es → ∀ i, e.d_index = some i →
      ∃ v, get_cache_size e = some (v, false) := by
    intro e he i hi
    have := hok e he (by rw [hi]; exact fun h => by cases h)
    cases hg : get_cache_size e with
    | none => rw [hg] at this; cases this
    | some r =>
      rw [hg] at this
      obtain ⟨v, b⟩ := r
      simp only [Option.map_some', Option.some.injEq] at this
      exact ⟨v, by rw [this]⟩
  obtain ⟨fin, hfin, herr, hlen, hhi, hrec, hkeep, hmax⟩ :=
    get_cache_sizes_loop_spec es
      { cache_sizes := List.replicate n 0, highest_index := -1, errno := false }
      hdistinct hrange' hok'
  simp only at herr hlen hhi hkeep hmax
  have hbound : ∀ e, e ∈ es → ∀ i v, recorded e i v → 0 ≤ i ∧ i < (n : Int) :=
    fun e he i v hr => hrange e he i (by rw [hr.1]; exact rfl)
  have hhi_lt : fin.highest_index < (n : Int) := by
    rcases hmax with h | ⟨e, he, v, hr⟩
    · rw [h]; omega
    · exact (hbound e he _ v hr).2
  have hret : wrap_int (fin.highest_index + 1) = fin.highest_index + 1 :=
    wrap_int_eq _ (by omega) (by omega)
  refine ⟨fin.highest_index + 1, fin.cache_sizes, ?_, by rw [hlen, List.length_replicate],
    ?_, ?_, ?_, ?_⟩
  · simp [get_cache_sizes, hfin, herr, hret]
  · intro e he i v hr
    obtain ⟨h1, h2⟩ := hrec e he i v hr
    exact ⟨h1, by omega, get_cache_size_pos_kind e v false hr.2.1 hr.2.2⟩
  · rcases hmax with h | ⟨e, he, v, hr⟩
    · left
      refine ⟨by rw [h]; rfl, fun e he i v hr => ?_⟩
      have h1 := (hrec e he i v hr).2
      have h2 := (hbound e he i v hr).1
      omega
    · right
      exact ⟨e, he, v, by simpa using hr⟩
  · intro e he hk i v hr
    have := get_cache_size_instruction e hk
    rw [hr.2.1] at this
    have hv := hr.2.2
    simp only [Option.some.injEq, Prod.mk.injEq] at this
    omega
  · intro k hk hno
    rw [hkeep k hno]
    simp [List.getElem?_replicate, hk]

/-! ## Size texts -/

theorem isDigit_bounds (c : Char) (h : c.isDigit = true) : 48 ≤ c.toNat ∧ c.toNat ≤ 57 := by
  simp only [Char.isDigit, Bool.and_eq_true, decide_eq_true_eq] at h
  exact ⟨h.1, h.2⟩

theorem decimal_value_cons (c : Char) (cs : List Char) :
    decimal_value (c :: cs) = (c.toNat - 48) * 10 ^ cs.length + decimal_value cs := by
  simp only [decimal_value, List.reverse_cons, List.map_append, List.map_cons, List.map_nil,
    Nat.ofDigits_append, Nat.ofDigits_singleton, List.length_map, List.length_reverse]
  ring

/-- The digit loop of `atoi` on a string of digits computes its decimal value. -/
theorem digits_value_digits (d : List Char) (hd : ∀ c, c ∈ d → c.isDigit = true) :
    ∀ acc, digits_value acc d = acc * 10 ^ d.length + decimal_value d := by
  induction d with
  | nil => intro acc; simp [digits_value, decimal_value]
  | cons c cs ih =>
    intro acc
    have hc : c.isDigit = true := hd c (List.mem_cons_self _ _)
    rw [digits_value, if_pos hc, ih (fun x hx => hd x (List.mem_cons_of_mem _ hx)),
      decimal_value_cons, List.length_cons]
    ring

/-- On a string of digits whose value fits `int`, `atoi` returns that value. -/
theorem atoi_digits (d : List Char) (hd : ∀ c, c ∈ d → c.isDigit = true)
    (hn : decimal_value d < 2147483648) : atoi d = some (decimal_value d : Int) := by
  have hval : ∀ body : List Char, (∀ c, c ∈ body → c.isDigit = true) →
      (match body with
        | [] => (0 : Int)
        | c :: cs =>
          if c = '-' then -(digits_value 0 cs : Int)
          else if c = '+' then (digits_value 0 cs : Int)
          else (digits_value 0 (c :: cs) : Int)) = (decimal_value body : Int) := by
    intro body hb
    cases body with
    | nil => simp [decimal_value]
    | cons c cs =>
      have hc : c.isDigit = true := hb c (List.mem_cons_self _ _)
      have h1 : ¬ c = '-' := by
        intro h; rw [h] at hc; exact absurd hc (by decide)
      have h2 : ¬ c = '+' := by
        intro h; rw [h] at hc; exact absurd hc (by decide)
      simp only [if_neg h1, if_neg h2]
      rw [digits_value_digits (c :: cs) hb 0]
      simp
  have hskip : skip_space d = d := by
    cases d with
    | nil => rfl
    | cons c cs =>
      have hb := isDigit_bounds c (hd c (List.mem_cons_self _ _))
      have : isspace c = false := by
        simp only [isspace, Bool.or_eq_false_iff, Bool.and_eq_false_iff, decide_eq_false_iff_not]
        omega
      simp [skip_space, this]
  unfold atoi
  simp only [hskip, hval d hd]
  rw [if_pos]
  constructor
  · have : (0 : Int) ≤ (decimal_value d : Int) := Int.ofNat_nonneg _
    omega
  · exact_mod_cast hn

/-- The core of `parse_size` on digits followed by one character. -/
theorem parse_size_digits (d : List Char) (u : Char)
    (hd : ∀ c, c ∈ d → c.isDigit = true) (hn : decimal_value d < 2147483648) :
    parse_size (d ++ [u]) = some (decimal_value d * unit_multiplier u) := by
  have hmul : unit_multiplier u ≤ 1073741824 := by
    unfold unit_multiplier
    split
    · omega
    · split
      · norm_num
      · split <;> norm_num
  unfold parse_size
  rw [List.getLast?_concat]
  simp only
  have htake : (d ++ [u]).take ((d ++ [u]).length - 1) = d := by simp
  rw [htake, atoi_digits d hd hn]
  simp only [Option.map_some', Option.some.injEq]
  have hmod : ((decimal_value d : Int) % 2 ^ 64).toNat = decimal_value d := by omega
  rw [hmod]
  have hm : (if u = 'k' ∨ u = 'K' then 1024
      else if u = 'm' ∨ u = 'M' then 1024 * 1024
      else if u = 'g' ∨ u = 'G' then 1024 * 1024 * 1024 else 1) = unit_multiplier u := by
    unfold unit_multiplier
    norm_num
  rw [hm]
  unfold wrap_size SIZE_RANGE
  apply Nat.mod_eq_of_lt
  calc decimal_value d * unit_multiplier u
      ≤ 2147483648 * 1073741824 := Nat.mul_le_mul (le_of_lt hn) hmul
    _ < 2 ^ 64 := by norm_num

/-- C12: for every string `d` of decimal digits denoting a value below 2^31 and
every final character `u`, `parse_size (d ++ u)` is that value times the unit
multiplier of `u`: 1024 for `k`/`K`, 1024^2 for `m`/`M`, 1024^3 for `g`/`G`, 1 for
any other character. The final character is always removed first, so a digit
string without suffix gives the value of all its digits but the last. -/
theorem parse_size_digits_unit (d : List Char) (u : Char)
    (hd : ∀ c, c ∈ d → c.isDigit = true) (hn : decimal_value d < 2 ^ 31) :
    parse_size (d ++ [u]) = some (decimal_value d * unit_multiplier u) ∧
    (u.isDigit = true → parse_size (d ++ [u]) = some (decimal_value d)) := by
  have hn' : decimal_value d < 2147483648 := by simpa using hn
  have key : parse_size (d ++ [u]) = some (decimal_value d * unit_multiplier u) :=
    parse_size_digits d u hd hn'
  refine ⟨key, fun hu => ?_⟩
  rw [key]
  have h1 : unit_multiplier u = 1 := by
    have hb := isDigit_bounds u hu
    unfold unit_multiplier
    have e1 : ¬ (u = 'k' ∨ u = 'K') := by
      rintro (h | h) <;> rw [h] at hu <;> exact absurd hu (by decide)
    have e2 : ¬ (u = 'm' ∨ u = 'M') := by
      rintro (h | h) <;> rw [h] at hu <;> exact absurd hu (by decide)
    have e3 : ¬ (u = 'g' ∨ u = 'G') := by
      rintro (h | h) <;> rw [h] at hu <;> exact absurd hu (by decide)
    rw [if_neg e1, if_neg e2, if_neg e3]
  rw [h1, Nat.mul_one]

/-- Witness of C12: the texts `32K`, `4M` and `4096`. -/
theorem parse_size_digits_unit_witness :
    ((∀ c, c ∈ "32".toList → c.isDigit = true) ∧ decimal_value "32".toList < 2 ^ 31) ∧
    parse_size ("32".toList ++ ['K']) = some (decimal_value "32".toList * unit_multiplier 'K') ∧
    parse_size "32K".toList = some 32768 ∧ parse_size "4M".toList = some 4194304 ∧
    parse_size "4096".toList = some 409 :=
  ⟨by decide, (parse_size_digits_unit "32".toList 'K' (by decide) (by decide)).1,
   by decide, by decide, by decide⟩

/-! ## Durations of one unit -/

/-- The nanosecond difference of `main` is the difference of the nanosecond totals
reduced to `long`. -/
theorem time_diff_ns_eq_wrap (t1 t0 : timespec) :
    time_diff_ns t1 t0 = wrap_long (t1.total_ns - t0.total_ns) := by
  unfold time_diff_ns timespec.total_ns wrap_long
  omega

/-- A difference that fits `long` and is not negative is split exactly. -/
theorem time_diff_of_fit (t1 t0 : timespec) (h0 : 0 ≤ t1.total_ns - t0.total_ns)
    (h1 : t1.total_ns - t0.total_ns ≤ LONG_MAX) :
    (time_diff t1 t0).total_ns = t1.total_ns - t0.total_ns ∧ (time_diff t1 t0).normalised := by
  unfold time_diff
  rw [time_diff_ns_eq_wrap, wrap_long_eq _ (by omega) h1, split_ns_of_nonneg _ h0]
  generalize t1.total_ns - t0.total_ns = D at *
  unfold timespec.total_ns timespec.normalised
  simp only
  omega

/-- C13 (as amended): for clock readings `start ≤ mid ≤ fin` of one unit, each with
`tv_sec ≥ 0` and `0 ≤ tv_nsec < 10^9`, whose nanosecond difference `fin - start`
fits the 64-bit `long`, both durations of `main` are exact
(`tv_sec * 10^9 + tv_nsec` is the nanosecond difference of the two readings) and
normalised (`tv_sec ≥ 0`, `0 ≤ tv_nsec < 10^9`), and the midpoint duration is not
greater than the total duration. -/
theorem time_diff_exact (start mid fin : timespec)
    (_hs : start.normalised) (_hm : mid.normalised) (_hf : fin.normalised)
    (h1 : start.total_ns ≤ mid.total_ns) (h2 : mid.total_ns ≤ fin.total_ns)
    (hfit : fin.total_ns - start.total_ns ≤ LONG_MAX) :
    (time_diff mid start).total_ns = mid.total_ns - start.total_ns ∧
    (time_diff mid start).normalised ∧
    (time_diff fin start).total_ns = fin.total_ns - start.total_ns ∧
    (time_diff fin start).normalised ∧
    (time_diff mid start).total_ns ≤ (time_diff fin start).total_ns := by
  obtain ⟨a1, a2⟩ := time_diff_of_fit mid start (by omega) (by omega)
  obtain ⟨b1, b2⟩ := time_diff_of_fit fin start (by omega) hfit
  exact ⟨a1, a2, b1, b2, by rw [a1, b1]; omega⟩

/-- Witness of C13: readings 5.9 s, 7.2 s and 9.1 s; the later readings have the
smaller nanosecond parts. -/
theorem time_diff_exact_witness :
    (timespec.normalised ⟨5, 900000000⟩ ∧ timespec.normalised ⟨7, 200000000⟩ ∧
      timespec.normalised ⟨9, 100000000⟩ ∧
      timespec.total_ns ⟨5, 900000000⟩ ≤ timespec.total_ns ⟨7, 200000000⟩ ∧
      timespec.total_ns ⟨7, 200000000⟩ ≤ timespec.total_ns ⟨9, 100000000⟩ ∧
      timespec.total_ns ⟨9, 100000000⟩ - timespec.total_ns ⟨5, 900000000⟩ ≤ LONG_MAX) ∧
    time_diff ⟨7, 200000000⟩ ⟨5, 900000000⟩ = ⟨1, 300000000⟩ ∧
    time_diff ⟨9, 100000000⟩ ⟨5, 900000000⟩ = ⟨3, 200000000⟩ ∧
    (time_diff ⟨7, 200000000⟩ ⟨5, 900000000⟩).total_ns ≤
      (time_diff ⟨9, 100000000⟩ ⟨5, 900000000⟩).total_ns :=
  ⟨by decide, by decide, by decide,
   (time_diff_exact ⟨5, 900000000⟩ ⟨7, 200000000⟩ ⟨9, 100000000⟩ (by decide) (by decide)
      (by decide) (by decide) (by decide) (by decide)).2.2.2.2⟩

/-- Counterexample to C13 as stated: readings 0 s, 0 s and 10^10 s are ordered and
have `tv_sec ≥ 0`, `0 ≤ tv_nsec < 10^9`, but the total duration computed in `long`
comes out negative and is not the difference. -/
theorem time_diff_long_interval :
    timespec.normalised ⟨0, 0⟩ ∧ timespec.normalised ⟨10000000000, 0⟩ ∧
      timespec.total_ns ⟨0, 0⟩ ≤ timespec.total_ns ⟨10000000000, 0⟩ ∧
      time_diff ⟨10000000000, 0⟩ ⟨0, 0⟩ = ⟨-8446744073, -709551616⟩ ∧
      (time_diff ⟨10000000000, 0⟩ ⟨0, 0⟩).total_ns ≠
        timespec.total_ns ⟨10000000000, 0⟩ - timespec.total_ns ⟨0, 0⟩ ∧
      ¬ (time_diff ⟨10000000000, 0⟩ ⟨0, 0⟩).normalised := by
  decide

/-! ## Bounds of the indexed accesses -/

theorem for_loop_first_none {σ : Type} (body : Nat → σ → Option σ) (st : σ)
    (h : body 0 st = none) : ∀ n, 1 ≤ n → for_loop body n st = none := by
  intro n hn
  induction n with
  | zero => omega
  | succ m ih =>
    rw [for_loop_succ]
    cases m with
    | zero => exact h
    | succ k => rw [ih (by omega)]; rfl

/-- Without the bound on `access_per_cache_line` the allocation loop leaves its
first block. -/
theorem allocate_overlong (s : settings) (clc : Nat) (junk : Nat → Nat → Nat)
    (hclc : 1 ≤ clc)
    (hlong : s.cache_line_size < s.access_per_cache_line * SIZEOF_SIZE_T) :
    allocate s clc junk = none := by
  unfold allocate
  apply for_loop_first_none _ _ _ clc hclc
  unfold allocate_block
  rw [zero_loop_none]
  · rfl
  · rw [malloc_words_length]
    unfold SIZEOF_SIZE_T at *
    omega

theorem mem_working_trace (clc apc yc j k : Nat)
    (h : Event.incr j k ∈ working_trace clc apc yc) : j < clc ∧ k < apc := by
  simp only [working_trace, List.mem_append, List.mem_singleton, List.mem_flatten,
    List.mem_replicate, reduceCtorEq, false_or, or_false] at h
  obtain ⟨l, ⟨_, rfl⟩, hl⟩ := h
  simp only [List.mem_append, List.mem_singleton, reduceCtorEq, or_false] at hl
  obtain ⟨j', k', hj, hk, he⟩ := (mem_pass_events clc apc _).1 hl
  cases he
  exact ⟨hj, hk⟩

theorem mem_deferred_trace (clc apc yc j k : Nat)
    (h : Event.incr j k ∈ deferred_trace clc apc yc) : j < clc ∧ k < apc := by
  simp only [deferred_trace, List.mem_append, List.mem_singleton, List.mem_flatten,
    List.mem_replicate, reduceCtorEq, false_or, or_false] at h
  rcases h with ⟨l, ⟨_, rfl⟩, hl⟩ | ⟨l, ⟨_, rfl⟩, hl⟩
  · simp at hl
  · obtain ⟨j', k', hj, hk, he⟩ := (mem_pass_events clc apc _).1 hl
    cases he
    exact ⟨hj, hk⟩

/-- The timed section on a freshly allocated working set is defined, in both modes
and for both roles, and increments only words `k < access_per_cache_line` of blocks
`j < clc`. -/
theorem timed_section_defined (s : settings) (is_child : Bool) (clc : Nat) (mem : List Block)
    (h : Ready clc s.access_per_cache_line { memory_blocks := mem, trace := [] }) :
    ∃ p, timed_section s is_child clc { memory_blocks := mem, trace := [] } = some p ∧
      ∀ j k, Event.incr j k ∈ p.trace → j < clc ∧ k < s.access_per_cache_line := by
  cases hb : (is_child && !s.concurrent_run) with
  | false =>
    obtain ⟨p, hp, htr, _⟩ := timed_section_working s is_child clc _ hb h
    refine ⟨p, hp, fun j k hjk => ?_⟩
    rw [htr, List.nil_append] at hjk
    exact mem_working_trace _ _ _ j k hjk
  | true =>
    have hc : is_child = true := by
      cases is_child
      · simp at hb
      · rfl
    have hm : s.concurrent_run = false := by
      cases hcr : s.concurrent_run
      · rfl
      · rw [hc, hcr] at hb; simp at hb
    subst hc
    obtain ⟨p, hp, htr, _⟩ := timed_section_deferred s clc _ hm h
    refine ⟨p, hp, fun j k hjk => ?_⟩
    rw [htr, List.nil_append] at hjk
    exact mem_deferred_trace _ _ _ j k hjk

/-- C14: for every configuration with
`access_per_cache_line * sizeof(size_t) ≤ cache_line_size`, for every block count,
role and mode, the allocation loop and both timing loops are defined: the working
set has `clc` blocks of `cache_line_size` bytes and every increment
`memory_blocks[j][k]++` has `j < clc` and word `k` wholly inside the block. The
workload as a whole is then undefined only through the division by a zero
`cache_line_size`. The bound is a precondition: without it the allocation loop of
a non-empty working set is undefined. -/
theorem workload_in_bounds (s : settings) (is_child : Bool) (junk : Nat → Nat → Nat)
    (hfit : s.access_per_cache_line * SIZEOF_SIZE_T ≤ s.cache_line_size) :
    (∀ clc, ∃ mem, allocate s clc junk = some mem ∧ mem.length = clc ∧
      (∀ b, b ∈ mem → b.size = s.cache_line_size) ∧
      ∃ p, timed_section s is_child clc { memory_blocks := mem, trace := [] } = some p ∧
        ∀ j k, Event.incr j k ∈ p.trace →
          j < clc ∧ (k + 1) * SIZEOF_SIZE_T ≤ s.cache_line_size) ∧
    (workload s is_child junk = none ↔ s.cache_line_size = 0) ∧
    (∀ (t : settings) (clc : Nat), 1 ≤ clc →
      t.cache_line_size < t.access_per_cache_line * SIZEOF_SIZE_T →
      allocate t clc junk = none) := by
  have hall : ∀ clc, ∃ mem, allocate s clc junk = some mem ∧ mem.length = clc ∧
      (∀ b, b ∈ mem → b.size = s.cache_line_size) ∧
      ∃ p, timed_section s is_child clc { memory_blocks := mem, trace := [] } = some p ∧
        ∀ j k, Event.incr j k ∈ p.trace →
          j < clc ∧ (k + 1) * SIZEOF_SIZE_T ≤ s.cache_line_size := by
    intro clc
    obtain ⟨mem, hmem, hlen, hsz, hz⟩ := allocate_spec s clc junk hfit
    have hready : Ready clc s.access_per_cache_line { memory_blocks := mem, trace := [] } :=
      fun j k hj hk => by rw [hz j k hj hk]; rfl
    obtain ⟨p, hp, hin⟩ := timed_section_defined s is_child clc mem hready
    refine ⟨mem, hmem, hlen, hsz, p, hp, fun j k hjk => ?_⟩
    obtain ⟨hj, hk⟩ := hin j k hjk
    refine ⟨hj, ?_⟩
    have : (k + 1) * SIZEOF_SIZE_T ≤ s.access_per_cache_line * SIZEOF_SIZE_T :=
      Nat.mul_le_mul_right _ hk
    omega
  refine ⟨hall, ?_, fun t clc hclc hlong => allocate_overlong t clc junk hclc hlong⟩
  constructor
  · intro hnone
    by_contra hne
    obtain ⟨mem, hmem, _, _, p, hp, _⟩ := hall (s.memory_total / s.cache_line_size)
    simp [workload, cache_line_count, hne, hmem, hp] at hnone
  · intro h0
    simp [workload, cache_line_count, h0]

/-- Witness of C14 at the end-to-end scenario. -/
theorem workload_in_bounds_witness :
    scenario.access_per_cache_line * SIZEOF_SIZE_T ≤ scenario.cache_line_size ∧
    (∃ mem, allocate scenario 16384 junk0 = some mem ∧ mem.length = 16384 ∧
      (∀ b, b ∈ mem → b.size = scenario.cache_line_size) ∧
      ∃ p, timed_section scenario true 16384 { memory_blocks := mem, trace := [] } = some p ∧
        ∀ j k, Event.incr j k ∈ p.trace →
          j < 16384 ∧ (k + 1) * SIZEOF_SIZE_T ≤ scenario.cache_line_size) ∧
    (workload scenario true junk0 = none ↔ scenario.cache_line_size = 0) :=
  ⟨by decide, (workload_in_bounds scenario true junk0 (by decide)).1 16384,
   (workload_in_bounds scenario true junk0 (by decide)).2.1⟩

/-! ## Option parsing -/

/-- An accepted option is taken by the `switch` without returning; it leaves the
cache line size alone and changes the memory footprint only when it is `m`. -/
theorem parse_option_accepted (s : settings) (verbose : Int) (o : getopt_result)
    (h : option_accepted o = true) :
    ∃ s1 v1, parse_option s verbose o = some (some (s1, v1)) ∧
      s1.cache_line_size = s.cache_line_size ∧
      s1.memory_total =
        if o.c = 'm' then (o.optarg.bind parse_size).getD s.memory_total else s.memory_total := by
  obtain ⟨c, optarg⟩ := o
  simp only at h ⊢
  unfold option_accepted at h
  unfold parse_option
  simp only at h ⊢
  by_cases hv : c = 'v'
  · subst hv
    simp only [if_true] at h ⊢
    cases optarg with
    | none => exact ⟨s, 1, rfl, rfl, by simp⟩
    | some arg =>
      simp only at h ⊢
      cases ha : atoi arg with
      | none => rw [ha] at h; simp at h
      | some n =>
        rw [ha] at h
        simp only [decide_eq_true_eq] at h
        refine ⟨s, n, ?_, rfl, by simp⟩
        have : ¬ (n > 3 ∨ n < 0) := by omega
        simp [this]
  · rw [if_neg hv] at h ⊢
    by_cases hm : c = 'm'
    · subst hm
      simp only [if_true] at h ⊢
      cases hp : optarg.bind parse_size with
      | none => rw [hp] at h; simp at h
      | some n => exact ⟨{ s with memory_total := n }, verbose, by simp, rfl, by simp⟩
    · rw [if_neg hm] at h ⊢
      by_cases hnum : c = 'a' ∨ c = 'y' ∨ c = 'f' ∨ c = 'p'
      · rw [if_pos hnum] at h
        cases hp : optarg.bind atoi with
        | none => rw [hp] at h; simp at h
        | some n =>
          rcases hnum with rfl | rfl | rfl | rfl
          · exact ⟨{ s with access_per_cache_line := size_of_long n }, verbose, by simp, rfl, rfl⟩
          · exact ⟨{ s with yield_count := size_of_long n }, verbose, by simp, rfl, rfl⟩
          · exact ⟨{ s with fifo_priority := n }, verbose, by simp, rfl, rfl⟩
          · exact ⟨{ s with cpu := size_of_long n }, verbose, by simp, rfl, rfl⟩
      · rw [if_neg hnum] at h
        have ha : ¬ c = 'a' := fun e => hnum (Or.inl e)
        have hy : ¬ c = 'y' := fun e => hnum (Or.inr (Or.inl e))
        have hf : ¬ c = 'f' := fun e => hnum (Or.inr (Or.inr (Or.inl e)))
        have hp : ¬ c = 'p' := fun e => hnum (Or.inr (Or.inr (Or.inr e)))
        rw [if_neg ha, if_neg hy]
        by_cases hc : c = 'c'
        · subst hc
          simp only [if_true] at h ⊢
          cases optarg with
          | none => exact ⟨{ s with concurrent_run := true }, verbose, rfl, rfl, rfl⟩
          | some arg =>
            simp only [decide_eq_true_eq] at h ⊢
            rcases h with h | h
            · exact ⟨{ s with concurrent_run := true }, verbose, by rw [if_pos h], rfl, rfl⟩
            · by_cases hyes : arg = "yes".toList
              · exact ⟨{ s with concurrent_run := true }, verbose, by rw [if_pos hyes], rfl, rfl⟩
              · exact ⟨{ s with concurrent_run := false }, verbose,
                  by rw [if_neg hyes, if_pos h], rfl, rfl⟩
        · rw [if_neg hc] at h ⊢
          rw [if_neg hf, if_neg hp]
          by_cases ho : c = 'o'
          · subst ho
            simp only [if_true] at h ⊢
            cases optarg with
            | none => simp at h
            | some arg =>
              simp only [decide_eq_true_eq] at h ⊢
              exact ⟨{ s with outfile := arg }, verbose, by rw [if_pos h], rfl, rfl⟩
          · rw [if_neg ho] at h ⊢
            by_cases hh : c = 'h' ∨ c = '?'
            · rw [if_pos hh] at h; simp at h
            · rw [if_neg hh]
              exact ⟨s, verbose, rfl, rfl, by rw [if_neg hm]⟩

/-- The `switch` returns only for a `verbose` or `concurrent` value, for `h` and for
an unrecognised option: never for a memory size. -/
theorem parse_option_return (s : settings) (verbose : Int) (o : getopt_result)
    (h : parse_option s verbose o = some none) :
    o.c = 'v' ∨ o.c = 'c' ∨ o.c = 'h' ∨ o.c = '?' := by
  by_contra hne
  simp only [not_or] at hne
  obtain ⟨hv, hc, hh, hq⟩ := hne
  unfold parse_option at h
  rw [if_neg hv] at h
  by_cases hm : o.c = 'm'
  · rw [if_pos hm] at h
    cases hp : o.optarg.bind parse_size with
    | none => rw [hp] at h; simp at h
    | some n => rw [hp] at h; simp at h
  · rw [if_neg hm] at h
    by_cases ha : o.c = 'a'
    · rw [if_pos ha] at h
      cases hp : o.optarg.bind atoi with
      | none => rw [hp] at h; simp at h
      | some n => rw [hp] at h; simp at h
    · rw [if_neg ha] at h
      by_cases hy : o.c = 'y'
      · rw [if_pos hy] at h
        cases hp : o.optarg.bind atoi with
        | none => rw [hp] at h; simp at h
        | some n => rw [hp] at h; simp at h
      · rw [if_neg hy, if_neg hc] at h
        by_cases hf : o.c = 'f'
        · rw [if_pos hf] at h
          cases hp : o.optarg.bind atoi with
          | none => rw [hp] at h; simp at h
          | some n => rw [hp] at h; simp at h
        · rw [if_neg hf] at h
          by_cases hp' : o.c = 'p'
          · rw [if_pos hp'] at h
            cases hp : o.optarg.bind atoi with
            | none => rw [hp] at h; simp at h
            | some n => rw [hp] at h; simp at h
          · rw [if_neg hp'] at h
            by_cases ho : o.c = 'o'
            · rw [if_pos ho] at h
              cases harg : o.optarg with
              | none => rw [harg] at h; simp at h
              | some arg =>
                rw [harg] at h
                simp only at h
                split at h <;> simp at h
            · rw [if_neg ho, if_neg (by simp [hh, hq])] at h
              simp at h

theorem footprint_cons (m0 : Nat) (o : getopt_result) (os : List getopt_result) :
    footprint m0 (o :: os) =
      footprint (if o.c = 'm' then (o.optarg.bind parse_size).getD m0 else m0) os := rfl

/-- On accepted options `parse_options` returns 0, keeps the cache line size and
leaves the footprint of the last `m` option. -/
theorem parse_options_accepted (opts : List getopt_result) :
    ∀ (s : settings) (verbose : Int), (∀ o, o ∈ opts → option_accepted o = true) →
    ∃ s1 v1, parse_options opts s verbose = some (0, s1, v1) ∧
      s1.cache_line_size = s.cache_line_size ∧
      s1.memory_total = footprint s.memory_total opts := by
  induction opts with
  | nil => intro s verbose _; exact ⟨s, verbose, rfl, rfl, rfl⟩
  | cons o os ih =>
    intro s verbose h
    obtain ⟨s1, v1, h1, hcls, hmem⟩ :=
      parse_option_accepted s verbose o (h o (List.mem_cons_self _ _))
    obtain ⟨s2, v2, h2, hcls2, hmem2⟩ := ih s1 v1 (fun x hx => h x (List.mem_cons_of_mem _ hx))
    refine ⟨s2, v2, ?_, by rw [hcls2, hcls], ?_⟩
    · simp only [parse_options, h1]
      exact h2
    · rw [hmem2, hmem, footprint_cons]

/-- C11 (as amended): on every command line whose options are each well formed in
themselves, `parse_options` after `initialize_settings` returns 0 with the probed
cache line size and with `memory_total` the `parse_size` value of the last `m`
option (4 MiB when there is none); that value is never compared with the cache
line size, so the configuration past option parsing satisfies
`memory_total ≥ cache_line_size` exactly when that footprint is at least the cache
line size. The `switch` returns non-zero only for a `verbose` or `concurrent` value,
`h` or an unrecognised option, and a lone `m` option is accepted whatever size
`parse_size` gives it. -/
theorem parse_options_footprint_unchecked (opts : List getopt_result)
    (line_size cpu_count verbose : Int)
    (h : ∀ o, o ∈ opts → option_accepted o = true) :
    (∃ s v, parse_options opts (initialize_settings line_size cpu_count) verbose = some (0, s, v) ∧
      s.cache_line_size = size_of_long line_size ∧
      s.memory_total = footprint 4194304 opts ∧
      (s.cache_line_size ≤ s.memory_total ↔
        size_of_long line_size ≤ footprint 4194304 opts) ∧
      (1 ≤ s.cache_line_size →
        (cache_line_count s = some (s.memory_total / s.cache_line_size) ∧
          (1 ≤ s.memory_total / s.cache_line_size ↔
            size_of_long line_size ≤ footprint 4194304 opts)))) ∧
    (∀ (s0 : settings) (v0 : Int) (o : getopt_result), parse_option s0 v0 o = some none →
      o.c = 'v' ∨ o.c = 'c' ∨ o.c = 'h' ∨ o.c = '?') ∧
    (∀ (s0 : settings) (v0 : Int) (text : List Char) (n : Nat), parse_size text = some n →
      parse_options [⟨'m', some text⟩] s0 v0 = some (0, { s0 with memory_total := n }, v0)) := by
  refine ⟨?_, parse_option_return, ?_⟩
  · obtain ⟨s, v, hs, hcls, hmem⟩ :=
      parse_options_accepted opts (initialize_settings line_size cpu_count) verbose h
    have hcls' : s.cache_line_size = size_of_long line_size := hcls
    have hmem' : s.memory_total = footprint 4194304 opts := hmem
    refine ⟨s, v, hs, hcls', hmem', by rw [hcls', hmem'], fun h1 => ⟨?_, ?_⟩⟩
    · have : ¬ s.cache_line_size = 0 := by omega
      simp [cache_line_count, this]
    · rw [Nat.one_le_div_iff (by omega), hcls', hmem']
  · intro s0 v0 text n hn
    simp [parse_options, parse_option, hn]

/-- Witness of C11: the command line `-m 1M -y 8 -c no` on a machine with 64-byte
lines and 8 CPUs. -/
theorem parse_options_footprint_unchecked_witness :
    (∀ o, o ∈ [(⟨'m', some "1M".toList⟩ : getopt_result), ⟨'y', some "8".toList⟩,
        ⟨'c', some "no".toList⟩] → option_accepted o = true) ∧
    ∃ s v, parse_options [⟨'m', some "1M".toList⟩, ⟨'y', some "8".toList⟩,
        ⟨'c', some "no".toList⟩] (initialize_settings 64 8) 2 = some (0, s, v) ∧
      s.cache_line_size = size_of_long 64 ∧
      s.memory_total = footprint 4194304 [⟨'m', some "1M".toList⟩, ⟨'y', some "8".toList⟩,
        ⟨'c', some "no".toList⟩] := by
  have h := (parse_options_footprint_unchecked
    [⟨'m', some "1M".toList⟩, ⟨'y', some "8".toList⟩, ⟨'c', some "no".toList⟩] 64 8 2
    (by decide)).1
  obtain ⟨s, v, h1, h2, h3, _⟩ := h
  exact ⟨by decide, s, v, h1, h2, h3⟩

/-- Counterexample to C11 as stated: with 64-byte lines the command line `-m 32`
passes option parsing with status 0 and a footprint of 3 bytes (`parse_size` drops
the last character), below the cache line size, and the block count is 0. -/
theorem parse_options_small_footprint :
    parse_options [⟨'m', some "32".toList⟩] (initialize_settings 64 8) 2 =
      some (0, { initialize_settings 64 8 with memory_total := 3 }, 2) ∧
    (initialize_settings 64 8).cache_line_size = 64 ∧
    ¬ ({ initialize_settings 64 8 with memory_total := 3 }.cache_line_size ≤
        { initialize_settings 64 8 with memory_total := 3 }.memory_total) ∧
    cache_line_count { initialize_settings 64 8 with memory_total := 3 } = some 0 := by
  decide

/-! ## The cache probe on a listing -/

theorem c_string_append_nul (x rest : List Char) (h : NUL ∉ x) :
    c_string (x ++ NUL :: rest) = x := by
  induction x with
  | nil => simp [c_string, List.takeWhile]
  | cons a as ih =>
    have ha : a ≠ NUL := fun e => h (by rw [e]; exact List.mem_cons_self _ _)
    have has : NUL ∉ as := fun m => h (List.mem_cons_of_mem _ m)
    have hd : decide (a ≠ NUL) = true := decide_eq_true ha
    have := ih has
    unfold c_string at this ⊢
    rw [List.cons_append, List.takeWhile_cons]
    simp only [hd, if_true]
    rw [this]

/-- Reading an attribute file (a value and a newline) into the 32-byte buffer and
cutting the newline leaves the value, a NUL and the old bytes behind them. -/
theorem read_text (x buf : List Char) (hlen : buf.length = 32) (hx : x.length < 31) :
    strip_newline (read_file (x ++ [NEWLINE]) buf).1 (read_file (x ++ [NEWLINE]) buf).2 =
      some (x ++ NUL :: buf.drop (x.length + 1)) := by
  have hmin : min (buf.length - 1) (x ++ [NEWLINE]).length = x.length + 1 := by
    rw [hlen, List.length_append, List.length_singleton]; omega
  have htake : (x ++ [NEWLINE]).take (x.length + 1) = x ++ [NEWLINE] := by
    rw [List.take_of_length_le]; simp
  simp only [read_file, hmin, htake]
  unfold strip_newline
  rw [if_neg (by omega)]
  have hget : (x ++ [NEWLINE] ++ List.drop (x.length + 1) buf)[x.length + 1 - 1]? =
      some NEWLINE := by
    rw [List.append_assoc, List.getElem?_append_right (by omega)]
    simp
  rw [if_pos hget]
  congr 1
  simp [List.set_append]

/-- What `get_cache_size` returns for the directory of a well-formed entry: 0 for
kind `Instruction`, -1 for a kind that is neither `Data` nor `Unified`, and the size
in bytes of the size text otherwise; `errno` stays clear. -/
theorem get_cache_size_listing (c : cache_index) (hwf : c.well_formed) :
    get_cache_size (listing_dirent (some c)) =
      if c.kind = "Instruction".toList then some (0, false)
      else if c.kind ≠ "Data".toList ∧ c.kind ≠ "Unified".toList then some (-1, false)
      else some (c.size_bytes, false) := by
  obtain ⟨hk1, hk2, hsz⟩ := hwf
  have htype : type_buffer (c.kind ++ [NEWLINE]) =
      some (c.kind ++ NUL :: (List.replicate 32 NUL).drop (c.kind.length + 1)) :=
    read_text c.kind (List.replicate 32 NUL) (by simp) hk2
  have hstr : c_string (c.kind ++ NUL :: (List.replicate 32 NUL).drop (c.kind.length + 1)) =
      c.kind := c_string_append_nul _ _ hk1
  unfold get_cache_size listing_dirent
  simp only [htype, hstr]
  by_cases h1 : c.kind = "Instruction".toList
  · rw [if_pos h1, if_pos h1]
  · rw [if_neg h1, if_neg h1]
    by_cases h2 : c.kind ≠ "Data".toList ∧ c.kind ≠ "Unified".toList
    · rw [if_pos h2, if_pos h2]
    · rw [if_neg h2, if_neg h2]
      have hdata : c.is_data := by
        unfold cache_index.is_data
        by_contra hn
        exact h2 ⟨fun e => hn (Or.inl e), fun e => hn (Or.inr e)⟩
      obtain ⟨hz1, hz2, hz3⟩ := hsz hdata
      have hlen : (c.kind ++ NUL :: (List.replicate 32 NUL).drop (c.kind.length + 1)).length =
          32 := by
        simp only [List.length_append, List.length_cons, List.length_drop,
          List.length_replicate]
        omega
      have hsize : size_buffer (c.size_text ++ [NEWLINE])
          (c.kind ++ NUL :: (List.replicate 32 NUL).drop (c.kind.length + 1)) =
          some (c.size_text ++ NUL ::
            (c.kind ++ NUL :: (List.replicate 32 NUL).drop (c.kind.length + 1)).drop
              (c.size_text.length + 1)) :=
        read_text c.size_text _ hlen hz2
      simp only [hsize, c_string_append_nul _ _ hz1]
      unfold cache_index.size_bytes
      cases hp : parse_size c.size_text with
      | none => rw [hp] at hz3; simp at hz3
      | some n => rfl

/-- An item of a well-formed listing is recorded exactly when it is an entry of
kind `Data` or `Unified` with a positive size in bytes, at its own index and with
that size. -/
theorem recorded_listing (o : Option cache_index) (hwf : ∀ c, o = some c → c.well_formed)
    (i v : Int) :
    recorded (listing_dirent o) i v ↔
      ∃ c, o = some c ∧ i = c.index ∧ c.is_data ∧ v = c.size_bytes ∧ 0 < c.size_bytes := by
  cases o with
  | none =>
    constructor
    · intro h
      have := h.1
      simp [listing_dirent] at this
    · rintro ⟨c, hc, _⟩
      cases hc
  | some c =>
    have hg := get_cache_size_listing c (hwf c rfl)
    unfold recorded
    constructor
    · rintro ⟨hi, hgv, hpos⟩
      have hi' : i = c.index := by
        simp only [listing_dirent, Option.some.injEq] at hi
        exact hi.symm
      rw [hg] at hgv
      by_cases h1 : c.kind = "Instruction".toList
      · rw [if_pos h1] at hgv
        simp only [Option.some.injEq, Prod.mk.injEq] at hgv
        omega
      · rw [if_neg h1] at hgv
        by_cases h2 : c.kind ≠ "Data".toList ∧ c.kind ≠ "Unified".toList
        · rw [if_pos h2] at hgv
          simp only [Option.some.injEq, Prod.mk.injEq] at hgv
          omega
        · rw [if_neg h2] at hgv
          simp only [Option.some.injEq, Prod.mk.injEq, and_true] at hgv
          have hdata : c.is_data := by
            unfold cache_index.is_data
            by_contra hn
            exact h2 ⟨fun e => hn (Or.inl e), fun e => hn (Or.inr e)⟩
          exact ⟨c, rfl, hi', hdata, hgv.symm, by rw [hgv]; exact hpos⟩
    · rintro ⟨c', hc', hi, hdata, hv, hpos⟩
      cases hc'
      have h1 : ¬ c.kind = "Instruction".toList := by
        intro e
        rcases hdata with h | h <;> rw [e] at h <;> exact absurd h (by decide)
      have h2 : ¬ (c.kind ≠ "Data".toList ∧ c.kind ≠ "Unified".toList) := by
        rintro ⟨a, b⟩
        rcases hdata with h | h
        · exact a h
        · exact b h
      rw [hg, if_neg h1, if_neg h2]
      exact ⟨by rw [hi]; rfl, by rw [hv], by rw [hv]; exact hpos⟩

theorem unit_multiplier_le (u : Char) : unit_multiplier u ≤ 1073741824 := by
  unfold unit_multiplier
  split
  · omega
  · split
    · norm_num
    · split <;> norm_num

theorem unit_multiplier_pos (u : Char) : 0 < unit_multiplier u := by
  unfold unit_multiplier
  split
  · omega
  · split
    · norm_num
    · split <;> norm_num

/-- The size in bytes of a size text made of digits and one final character. -/
theorem size_bytes_digits (c : cache_index) (d : List Char) (u : Char)
    (hc : c.size_text = d ++ [u]) (hd : ∀ x, x ∈ d → x.isDigit = true)
    (hn : decimal_value d < 2 ^ 31) :
    c.size_bytes = (decimal_value d * unit_multiplier u : Nat) := by
  have hn' : decimal_value d < 2147483648 := by simpa using hn
  unfold cache_index.size_bytes
  rw [hc, parse_size_digits d u hd hn']
  simp only
  have hle : decimal_value d * unit_multiplier u ≤ 2147483648 * 1073741824 :=
    Nat.mul_le_mul (le_of_lt hn') (unit_multiplier_le u)
  have hle' : ((decimal_value d * unit_multiplier u : Nat) : Int) ≤ 2305843009213693952 := by
    have : (2147483648 * 1073741824 : Nat) = 2305843009213693952 := by norm_num
    rw [this] at hle
    exact_mod_cast hle
  have h0 : (0 : Int) ≤ ((decimal_value d * unit_multiplier u : Nat) : Int) :=
    Int.ofNat_nonneg _
  apply wrap_long_eq
  · omega
  · unfold LONG_MAX
    omega

/-- Entries of a listing with distinct indices are told apart by their index. -/
theorem listing_index_inj (dir : List (Option cache_index))
    (h : (dir.filterMap (Option.map cache_index.index)).Nodup)
    (c c' : cache_index) (hc : some c ∈ dir) (hc' : some c' ∈ dir)
    (hi : c.index = c'.index) : c = c' := by
  induction dir with
  | nil => exact absurd hc (List.not_mem_nil _)
  | cons o os ih =>
    cases o with
    | none =>
      have h' : (os.filterMap (Option.map cache_index.index)).Nodup := by
        simpa [List.filterMap_cons] using h
      rcases List.mem_cons.1 hc with e | hc1
      · cases e
      · rcases List.mem_cons.1 hc' with e | hc1'
        · cases e
        · exact ih h' hc1 hc1'
    | some a =>
      have h2 : a.index ∉ os.filterMap (Option.map cache_index.index) ∧
          (os.filterMap (Option.map cache_index.index)).Nodup := by
        simpa [List.filterMap_cons] using h
      have hmem : ∀ x : cache_index, some x ∈ os →
          x.index ∈ os.filterMap (Option.map cache_index.index) :=
        fun x hx => List.mem_filterMap.2 ⟨some x, hx, rfl⟩
      rcases List.mem_cons.1 hc with e | hc1
      · cases e
        rcases List.mem_cons.1 hc' with e' | hc1'
        · cases e'; rfl
        · exact absurd (by rw [hi]; exact hmem c' hc1') h2.1
      · rcases List.mem_cons.1 hc' with e' | hc1'
        · cases e'
          exact absurd (by rw [← hi]; exact hmem c hc1) h2.1
        · exact ih h2.2 hc1 hc1'

/-- C10: for every listing of cache index entries (index, kind, size text) with
distinct indices inside a zero-initialised array of `n` slots and well-formed
texts, `get_cache_sizes` returns `ret` and leaves the array `sizes` where: every
entry of kind `Data` or `Unified` whose size text stands for a positive size has
that size in bytes at its own index, and `ret` is at least its index plus one;
`ret` is 0 when there is no such entry and otherwise one more than the index of
such an entry; the slot of an `Instruction` entry is zero; every slot that is not
the index of such an entry is zero. The size in bytes of a size text made of
digits and a final character is the number times the unit multiplier, positive
exactly when the number is. -/
theorem get_cache_sizes_listing (dir : List (Option cache_index)) (n : Nat)
    (hn : n < 2147483648)
    (hdistinct : (dir.filterMap (Option.map cache_index.index)).Nodup)
    (hrange : ∀ c, some c ∈ dir → 0 ≤ c.index ∧ c.index < (n : Int))
    (hwf : ∀ c, some c ∈ dir → c.well_formed) :
    ∃ ret sizes,
      get_cache_sizes (some (dir.map listing_dirent)) (List.replicate n 0) = some (ret, sizes) ∧
      sizes.length = n ∧
      (∀ c, some c ∈ dir → c.is_data → 0 < c.size_bytes →
        sizes[c.index.toNat]? = some c.size_bytes.toNat ∧ c.index + 1 ≤ ret) ∧
      ((ret = 0 ∧ ∀ c, some c ∈ dir → ¬ (c.is_data ∧ 0 < c.size_bytes)) ∨
        ∃ c, some c ∈ dir ∧ c.is_data ∧ 0 < c.size_bytes ∧ ret = c.index + 1) ∧
      (∀ c, some c ∈ dir → c.kind = "Instruction".toList →
        sizes[c.index.toNat]? = some 0) ∧
      (∀ k : Nat, k < n →
        (∀ c, some c ∈ dir → c.is_data → 0 < c.size_bytes → c.index ≠ (k : Int)) →
        sizes[k]? = some 0) ∧
      (∀ c, some c ∈ dir → ∀ (d : List Char) (u : Char), c.size_text = d ++ [u] →
        (∀ x, x ∈ d → x.isDigit = true) → decimal_value d < 2 ^ 31 →
        c.size_bytes = (decimal_value d * unit_multiplier u : Nat) ∧
        (0 < c.size_bytes ↔ 0 < decimal_value d)) := by
  have hcomp : (cache_dirent.d_index ∘ listing_dirent) = Option.map cache_index.index := by
    funext o
    cases o <;> rfl
  have hwf' : ∀ o, o ∈ dir → ∀ c, o = some c → c.well_formed :=
    fun o ho c hc => hwf c (by rw [← hc]; exact ho)
  have hrec : ∀ o, o ∈ dir → ∀ i v, recorded (listing_dirent o) i v ↔
      ∃ c, o = some c ∧ i = c.index ∧ c.is_data ∧ v = c.size_bytes ∧ 0 < c.size_bytes :=
    fun o ho i v => recorded_listing o (hwf' o ho) i v
  obtain ⟨ret, sizes, hret, hlen, hstore, hmax, _, hzero⟩ :=
    get_cache_sizes_of_probes (dir.map listing_dirent) n hn
      (by rw [List.filterMap_map, hcomp]; exact hdistinct)
      (by
        intro e he i hi
        obtain ⟨o, ho, rfl⟩ := List.mem_map.1 he
        cases o with
        | none => cases hi
        | some c =>
          have : i = c.index := by
            simp only [listing_dirent, Option.mem_def, Option.some.injEq] at hi
            exact hi.symm
          rw [this]
          exact hrange c ho)
      (by
        intro e he hne
        obtain ⟨o, ho, rfl⟩ := List.mem_map.1 he
        cases o with
        | none => exact absurd rfl hne
        | some c =>
          rw [get_cache_size_listing c (hwf c ho)]
          split
          · rfl
          · split <;> rfl)
  have hzero' : ∀ k : Nat, k < n →
      (∀ c, some c ∈ dir → c.is_data → 0 < c.size_bytes → c.index ≠ (k : Int)) →
      sizes[k]? = some 0 := by
    intro k hk hno
    apply hzero k hk
    intro e he v hr
    obtain ⟨o, ho, rfl⟩ := List.mem_map.1 he
    obtain ⟨c, hc, hi, hdata, _, hpos⟩ := (hrec o ho k v).1 hr
    subst hc
    exact hno c ho hdata hpos hi.symm
  refine ⟨ret, sizes, hret, hlen, ?_, ?_, ?_, hzero', ?_⟩
  · intro c hc hdata hpos
    have hr : recorded (listing_dirent (some c)) c.index c.size_bytes :=
      (hrec (some c) hc _ _).2 ⟨c, rfl, rfl, hdata, rfl, hpos⟩
    obtain ⟨h1, h2, _⟩ := hstore _ (List.mem_map.2 ⟨some c, hc, rfl⟩) _ _ hr
    exact ⟨h1, h2⟩
  · rcases hmax with ⟨h0, hnone⟩ | ⟨e, he, v, hr⟩
    · left
      refine ⟨h0, fun c hc hcd => ?_⟩
      exact hnone _ (List.mem_map.2 ⟨some c, hc, rfl⟩) c.index c.size_bytes
        ((hrec (some c) hc _ _).2 ⟨c, rfl, rfl, hcd.1, rfl, hcd.2⟩)
    · right
      obtain ⟨o, ho, rfl⟩ := List.mem_map.1 he
      obtain ⟨c, hc, hi, hdata, _, hpos⟩ := (hrec o ho _ v).1 hr
      subst hc
      exact ⟨c, ho, hdata, hpos, by omega⟩
  · intro c hc hkind
    obtain ⟨h0, hlt⟩ := hrange c hc
    have hcast : ((c.index.toNat : Nat) : Int) = c.index := Int.toNat_of_nonneg h0
    apply hzero' c.index.toNat (by omega)
    intro c' hc' hdata' _ hidx
    have heq : c' = c := listing_index_inj dir hdistinct c' c hc' hc (by rw [hidx, hcast])
    rw [heq] at hdata'
    rcases hdata' with h | h <;> rw [hkind] at h <;> exact absurd h (by decide)
  · intro c _ d u hc hd hlt
    have hsz := size_bytes_digits c d u hc hd hlt
    refine ⟨hsz, ?_⟩
    rw [hsz]
    have hu := unit_multiplier_pos u
    constructor
    · intro h
      have h' : 0 < decimal_value d * unit_multiplier u := by exact_mod_cast h
      exact Nat.pos_of_mul_pos_right h'
    · intro h
      exact_mod_cast Nat.mul_pos h hu

/-- Witness of C10: the four-level listing `cache_listing`, which is the directory
`cache_dir`, probed into ten slots. -/
theorem get_cache_sizes_listing_witness :
    ((10 : Nat) < 2147483648 ∧
      (cache_listing.filterMap (Option.map cache_index.index)).Nodup ∧
      (∀ c, some c ∈ cache_listing → 0 ≤ c.index ∧ c.index < ((10 : Nat) : Int)) ∧
      (∀ c, some c ∈ cache_listing → c.well_formed)) ∧
    cache_listing.map listing_dirent = cache_dir ∧
    get_cache_sizes (some (cache_listing.map listing_dirent)) (List.replicate 10 0) =
      some (4, [32768, 0, 262144, 8388608, 0, 0, 0, 0, 0, 0]) ∧
    ∃ ret sizes,
      get_cache_sizes (some (cache_listing.map listing_dirent)) (List.replicate 10 0) =
        some (ret, sizes) ∧ sizes.length = 10 := by
  have hr : ∀ c, some c ∈ cache_listing → 0 ≤ c.index ∧ c.index < ((10 : Nat) : Int) := by
    intro c hc
    simp only [cache_listing, List.mem_cons, Option.some.injEq, List.mem_singleton,
      reduceCtorEq, false_or, List.not_mem_nil, or_false] at hc
    rcases hc with rfl | rfl | rfl | rfl <;> decide
  have hw : ∀ c, some c ∈ cache_listing → c.well_formed := by
    intro c hc
    simp only [cache_listing, List.mem_cons, Option.some.injEq, List.mem_singleton,
      reduceCtorEq, false_or, List.not_mem_nil, or_false] at hc
    rcases hc with rfl | rfl | rfl | rfl <;> decide
  have h := get_cache_sizes_listing cache_listing 10 (by decide) (by decide) hr hw
  obtain ⟨ret, sizes, h1, h2, _⟩ := h
  exact ⟨⟨by decide, by decide, hr, hw⟩, by decide, by decide, ret, sizes, h1, h2⟩

end CacheHotness
